import Mathlib

/-!
Shallow embedding of the `kvcache_sim` cache-policy family and replay engine.

Python `OrderedDict[int, int]` values are embedded as association lists
`List (Int × Int)` in insertion order; dictionary assignment, ordered pops
and `move_to_end` are given exact counterparts below.  Python `while` loops
are embedded as fuel-indexed recursions; every call site passes a fuel that
provably dominates the number of iterations the loop can make (each
iteration removes at least one resident entry), except where the source
loop can genuinely diverge, which is kept as an explicit fuel parameter and
proved divergent.  All integers are `Int`, matching Python's arbitrary
precision integers.
-/

/-- Lookup result, mirroring `CacheLookup` in `cache/interfaces.py`. -/
structure CacheLookup where
  hit : Bool
  level : String
deriving Repr, DecidableEq

/-- Metadata hint, mirroring `CacheMetadata` in `cache/interfaces.py`.
Tenant identifiers are embedded as integers (Python's `hash` is the
identity on small integers). -/
structure CacheMetadata where
  timestampMs : Option Int := none
  priority : Int := 0
  pinned : Bool := false
  tenantId : Option Int := none
deriving Repr, DecidableEq

/-- First value bound to key `k` (Python `d[k]` / `d.get(k)`). -/
def dget (l : List (Int × Int)) (k : Int) : Option Int :=
  (l.find? (fun p => p.1 == k)).map (·.2)

/-- Key membership (Python `k in d`). -/
def dhas (l : List (Int × Int)) (k : Int) : Bool :=
  l.any (fun p => p.1 == k)

/-- Removal of key `k` (Python `d.pop(k, None)`); on duplicate-free lists
this removes exactly the one entry. -/
def derase (l : List (Int × Int)) (k : Int) : List (Int × Int) :=
  l.filter (fun p => p.1 != k)

/-- Dictionary assignment `d[k] = v`: update in place when present,
append otherwise. -/
def dset (l : List (Int × Int)) (k v : Int) : List (Int × Int) :=
  if dhas l k then l.map (fun p => if p.1 == k then (p.1, v) else p)
  else l ++ [(k, v)]

/-- Python `OrderedDict.move_to_end(k)` for a present key. -/
def dmove (l : List (Int × Int)) (k : Int) : List (Int × Int) :=
  match dget l k with
  | none => l
  | some v => derase l k ++ [(k, v)]

/-- Keys of an association list, in order. -/
def dkeys (l : List (Int × Int)) : List Int :=
  l.map (·.1)

/-! ## TTL cache (`cache/ttl.py`) -/

/-- State of `TTLCache`: insertion-ordered items, per-key expiry map,
byte usage, hit/miss counters and the logical clock `_now`. -/
structure TTLSt where
  cap : Int
  ttl : Int
  items : List (Int × Int)
  expiry : List (Int × Int)
  used : Int
  hits : Int
  misses : Int
  now : Int
deriving Repr, DecidableEq

/-- `TTLCache.__init__`: `ttl_ms = max(0, int(ttl_ms))`. -/
def ttlInit (cap ttl : Int) : TTLSt :=
  ⟨cap, max 0 ttl, [], [], 0, 0, 0, 0⟩

/-- `TTLCache._advance`: take a positive metadata timestamp, else tick the
logical clock. -/
def ttlAdvance (st : TTLSt) (md : Option CacheMetadata) : TTLSt :=
  match md with
  | some m =>
    match m.timestampMs with
    | some ts => if ts > 0 then { st with now := ts } else { st with now := st.now + 1 }
    | none => { st with now := st.now + 1 }
  | none => { st with now := st.now + 1 }

/-- `TTLCache._is_expired`. -/
def ttlIsExpired (st : TTLSt) (k now : Int) : Bool :=
  match dget st.expiry k with
  | none => false
  | some e => now ≥ e

/-- `TTLCache._remove`. -/
def ttlRemove (st : TTLSt) (k : Int) : TTLSt :=
  let st1 :=
    match dget st.items k with
    | some s => { st with items := derase st.items k, used := st.used - s }
    | none => st
  { st1 with expiry := derase st1.expiry k }

/-- `TTLCache._purge_expired`: remove every key whose expiry has passed. -/
def ttlPurge (st : TTLSt) (now : Int) : TTLSt :=
  ((st.expiry.filter (fun p => now ≥ p.2)).map (·.1)).foldl ttlRemove st

/-- Eviction loop of `TTLCache._insert`: pop the front of `items` while
`used + size > capacity`; fuel `items.length` dominates the iteration
count since every pass removes the front entry. -/
def ttlEvictLoop : Nat → Int → TTLSt → TTLSt
  | 0, _, st => st
  | fuel + 1, s, st =>
    match st.items with
    | [] => st
    | (k, _) :: _ =>
      if st.used + s > st.cap then ttlEvictLoop fuel s (ttlRemove st k) else st

/-- `TTLCache._insert`. -/
def ttlInsert (st : TTLSt) (k s now : Int) : TTLSt :=
  if s > st.cap then st
  else
    let st1 := if st.ttl > 0 then ttlPurge st now else st
    let st2 := ttlEvictLoop st1.items.length s st1
    let st3 := { st2 with items := dset st2.items k s, used := st2.used + s }
    if st.ttl > 0 then { st3 with expiry := dset st3.expiry k (now + st.ttl) } else st3

/-- `TTLCache.get`. -/
def ttlGet (st : TTLSt) (k s : Int) (md : Option CacheMetadata) : TTLSt × CacheLookup :=
  let st0 := ttlAdvance st md
  if dhas st0.items k then
    if ttlIsExpired st0 k st0.now then
      let st1 := ttlRemove st0 k
      let st2 := { st1 with misses := st1.misses + 1 }
      (ttlInsert st2 k s st0.now, ⟨false, "miss"⟩)
    else
      ({ st0 with items := dmove st0.items k, hits := st0.hits + 1 }, ⟨true, "l1"⟩)
  else
    let st1 := { st0 with misses := st0.misses + 1 }
    (ttlInsert st1 k s st0.now, ⟨false, "miss"⟩)

/-- `TTLCache.put`. -/
def ttlPut (st : TTLSt) (k s : Int) (md : Option CacheMetadata) : TTLSt :=
  let st0 := ttlAdvance st md
  let st1 := if dhas st0.items k then ttlRemove st0 k else st0
  ttlInsert st1 k s st0.now

/-! ## LRU cache, modelled from the spec

`lru.py` is not among the provided sources (only its callers
`hierarchical_lru.py`, `partitioned_lru.py` and `factory.py` are), so the
LRU policy is modelled from the specification text. -/

/-- State of the LRU policy. -/
structure LRUSt where
  cap : Int
  items : List (Int × Int)
  used : Int
  hits : Int
  misses : Int
deriving Repr, DecidableEq

/-- Fresh LRU state. -/
def lruInit (cap : Int) : LRUSt :=
  ⟨cap, [], 0, 0, 0⟩

/-- Modelled from the spec: eviction loop of the missing `lru.py` —
“evictions proceed until the invariant `used_bytes + size_bytes ≤
capacity_bytes` holds”; the victim is the least-recently-used end, which
is the front of the insertion-ordered list. -/
def lruEvictLoop : Nat → Int → LRUSt → LRUSt
  | 0, _, st => st
  | fuel + 1, s, st =>
    match st.items with
    | [] => st
    | (_, sz) :: rest =>
      if st.used + s > st.cap then
        lruEvictLoop fuel s { st with items := rest, used := st.used - sz }
      else st

/-- Modelled from the spec: admission of the missing `lru.py` — “if
`size_bytes > capacity_bytes`, the key is not admitted and no existing
entries are evicted”, otherwise evict until the entry fits and install it
at the most-recently-used end. -/
def lruInsert (st : LRUSt) (k s : Int) : LRUSt :=
  if s > st.cap then st
  else
    let st1 := lruEvictLoop st.items.length s st
    { st1 with items := dset st1.items k s, used := st1.used + s }

/-- Modelled from the spec: `get` of the missing `lru.py` — on hit
move-to-end and count a hit; on miss count a miss and admit. -/
def lruGet (st : LRUSt) (k s : Int) : LRUSt × CacheLookup :=
  if dhas st.items k then
    ({ st with items := dmove st.items k, hits := st.hits + 1 }, ⟨true, "l1"⟩)
  else
    (lruInsert { st with misses := st.misses + 1 } k s, ⟨false, "miss"⟩)

/-- Modelled from the spec: `put` of the missing `lru.py` — “if present,
remove and reinsert at size `size_bytes`”, without touching the hit/miss
counters. -/
def lruPut (st : LRUSt) (k s : Int) : LRUSt :=
  let st1 :=
    match dget st.items k with
    | some sz => { st with items := derase st.items k, used := st.used - sz }
    | none => st
  lruInsert st1 k s

/-- Modelled from the spec: `contains` of the missing `lru.py`, used by
`hierarchical_lru.py`. -/
def lruContains (st : LRUSt) (k : Int) : Bool :=
  dhas st.items k

/-! ## FIFO cache, modelled from the spec

`fifo.py` is not among the provided sources; the FIFO policy is modelled
from the specification text (“as LRU but no move-to-end on hit; only
admission appends; eviction is strictly insertion-order”).  It serves as
the comparison target of the TTL-refinement claim. -/

/-- State of the spec-modelled FIFO policy. -/
structure FIFOSt where
  cap : Int
  items : List (Int × Int)
  used : Int
  hits : Int
  misses : Int
deriving Repr, DecidableEq

/-- Fresh FIFO state. -/
def fifoInit (cap : Int) : FIFOSt :=
  ⟨cap, [], 0, 0, 0⟩

/-- Modelled from the spec: FIFO eviction loop, oldest-inserted first. -/
def fifoEvictLoop : Nat → Int → FIFOSt → FIFOSt
  | 0, _, st => st
  | fuel + 1, s, st =>
    match st.items with
    | [] => st
    | (_, sz) :: rest =>
      if st.used + s > st.cap then
        fifoEvictLoop fuel s { st with items := rest, used := st.used - sz }
      else st

/-- Modelled from the spec: FIFO admission (same admission rule as LRU). -/
def fifoInsert (st : FIFOSt) (k s : Int) : FIFOSt :=
  if s > st.cap then st
  else
    let st1 := fifoEvictLoop st.items.length s st
    { st1 with items := dset st1.items k s, used := st1.used + s }

/-- Modelled from the spec: FIFO `get` — a hit does not move the key. -/
def fifoGet (st : FIFOSt) (k s : Int) : FIFOSt × CacheLookup :=
  if dhas st.items k then
    ({ st with hits := st.hits + 1 }, ⟨true, "l1"⟩)
  else
    (fifoInsert { st with misses := st.misses + 1 } k s, ⟨false, "miss"⟩)

/-- Modelled from the spec: FIFO `put` — remove if present, reinsert. -/
def fifoPut (st : FIFOSt) (k s : Int) : FIFOSt :=
  let st1 :=
    match dget st.items k with
    | some sz => { st with items := derase st.items k, used := st.used - sz }
    | none => st
  fifoInsert st1 k s

/-! ## Block-split rule (`simulator/engine.py`, `_split_tokens`) -/

/-- Inner loop of `_split_tokens`: `n` blocks remain, `left` tokens remain;
the final block takes `max(1, tokens_left)`, earlier blocks take
`min(block_size, max(1, tokens_left))`, and after each assignment
`tokens_left ← max(0, tokens_left − block_size)`. -/
def splitGo (B : Int) : Nat → Int → List Int
  | 0, _ => []
  | 1, left => [max 1 left]
  | n + 2, left => min B (max 1 left) :: splitGo B (n + 1) (max 0 (left - B))

/-- `_split_tokens(total_tokens, num_blocks, block_size)`. -/
def splitTokens (totalTokens numBlocks blockSize : Int) : List Int :=
  if numBlocks ≤ 0 then []
  else if totalTokens ≤ 0 then List.replicate numBlocks.toNat blockSize
  else splitGo blockSize numBlocks.toNat totalTokens

/-! ## ARC cache (`cache/arc.py`)

The constructor computes the initial split point as
`int(capacity_bytes * clamp(p_init_fraction))`; the embedding takes that
already-computed integer as a parameter `p0`, so every theorem quantifying
over `p0` covers every fraction. -/

/-- State of `ARCCache`: resident lists T1/T2, ghost lists B1/B2, the
adaptive split point `p`, byte and hit/miss counters. -/
structure ARCSt where
  cap : Int
  p : Int
  t1 : List (Int × Int)
  t2 : List (Int × Int)
  b1 : List (Int × Int)
  b2 : List (Int × Int)
  t1Bytes : Int
  t2Bytes : Int
  hits : Int
  misses : Int
deriving Repr, DecidableEq

/-- `ARCCache.__init__` with the split point already converted to bytes. -/
def arcInit (cap p0 : Int) : ARCSt :=
  ⟨cap, p0, [], [], [], [], 0, 0, 0, 0⟩

/-- Loop of `ARCCache._trim_ghost`: pop the oldest ghost while the ghost
byte total exceeds `capacity_bytes`. -/
def arcTrimLoop (cap : Int) : Nat → Int → List (Int × Int) → List (Int × Int)
  | 0, _, g => g
  | fuel + 1, total, g =>
    match g with
    | [] => g
    | (_, sz) :: rest => if total > cap then arcTrimLoop cap fuel (total - sz) rest else g

/-- `ARCCache._trim_ghost`. -/
def arcTrimGhost (cap : Int) (g : List (Int × Int)) : List (Int × Int) :=
  arcTrimLoop cap g.length ((g.map (·.2)).sum) g

/-- Loop of `ARCCache._replace`: while `T1+T2` bytes reach capacity, evict
the oldest of T1 into B1 when T1 is over the split point (or at it with
the key in B2), else the oldest of T2 into B2.  Each continuing iteration
pops one resident entry, so fuel `|T1| + |T2| + 1` is exact. -/
def arcReplaceLoop (k : Int) : Nat → ARCSt → ARCSt
  | 0, st => st
  | fuel + 1, st =>
    if st.t1Bytes + st.t2Bytes ≥ st.cap ∧ (st.t1 ≠ [] ∨ st.t2 ≠ []) then
      if st.t1 ≠ [] ∧ (st.t1Bytes > st.p ∨ (dhas st.b2 k ∧ st.t1Bytes = st.p)) then
        match st.t1 with
        | [] => st
        | (ek, es) :: rest =>
          arcReplaceLoop k fuel
            { st with t1 := rest, t1Bytes := st.t1Bytes - es,
                      b1 := arcTrimGhost st.cap (dset st.b1 ek es) }
      else if st.t2 ≠ [] then
        match st.t2 with
        | [] => st
        | (ek, es) :: rest =>
          arcReplaceLoop k fuel
            { st with t2 := rest, t2Bytes := st.t2Bytes - es,
                      b2 := arcTrimGhost st.cap (dset st.b2 ek es) }
      else st
    else st

/-- `ARCCache._replace`. -/
def arcReplace (st : ARCSt) (k : Int) : ARCSt :=
  arcReplaceLoop k (st.t1.length + st.t2.length + 1) st

/-- `ARCCache._insert_t1`. -/
def arcInsertT1 (st : ARCSt) (k s : Int) : ARCSt :=
  if s > st.cap then st
  else { st with t1 := dset st.t1 k s, t1Bytes := st.t1Bytes + s }

/-- `ARCCache._insert_t2`. -/
def arcInsertT2 (st : ARCSt) (k s : Int) : ARCSt :=
  if s > st.cap then st
  else { st with t2 := dset st.t2 k s, t2Bytes := st.t2Bytes + s }

/-- `ARCCache.get`; the ghost pops and `_adapt_p` updates happen before
`_replace` runs, exactly as in the source. -/
def arcGet (st : ARCSt) (k s : Int) : ARCSt × CacheLookup :=
  match dget st.t1 k with
  | some sz =>
    ({ st with t1 := derase st.t1 k, t1Bytes := st.t1Bytes - sz,
               t2 := dset st.t2 k sz, t2Bytes := st.t2Bytes + sz,
               hits := st.hits + 1 }, ⟨true, "l1"⟩)
  | none =>
    if dhas st.t2 k then
      ({ st with t2 := dmove st.t2 k, hits := st.hits + 1 }, ⟨true, "l1"⟩)
    else
      let st0 := { st with misses := st.misses + 1 }
      match dget st0.b1 k with
      | some gs =>
        let st1 := { st0 with b1 := derase st0.b1 k, p := min st0.cap (st0.p + max 1 gs) }
        (arcInsertT2 (arcReplace st1 k) k s, ⟨false, "miss"⟩)
      | none =>
        match dget st0.b2 k with
        | some gs =>
          let st1 := { st0 with b2 := derase st0.b2 k, p := max 0 (st0.p - max 1 gs) }
          (arcInsertT2 (arcReplace st1 k) k s, ⟨false, "miss"⟩)
        | none => (arcInsertT1 (arcReplace st0 k) k s, ⟨false, "miss"⟩)

/-- `ARCCache.put`. -/
def arcPut (st : ARCSt) (k s : Int) : ARCSt :=
  match dget st.t1 k with
  | some sz =>
    arcInsertT2 { st with t1 := derase st.t1 k, t1Bytes := st.t1Bytes - sz } k s
  | none =>
    match dget st.t2 k with
    | some sz =>
      arcInsertT2 { st with t2 := derase st.t2 k, t2Bytes := st.t2Bytes - sz } k s
    | none =>
      if dhas st.b1 k then
        arcInsertT2 (arcReplace { st with b1 := derase st.b1 k } k) k s
      else if dhas st.b2 k then
        arcInsertT2 (arcReplace { st with b2 := derase st.b2 k } k) k s
      else arcInsertT1 (arcReplace st k) k s

/-- Resident byte total reported by `ARCCache.stats` as `used_bytes`. -/
def arcUsedBytes (st : ARCSt) : Int :=
  st.t1Bytes + st.t2Bytes

/-! ## LFU cache (`cache/lfu.py`) -/

/-- Ordered key set of the frequency bucket `f`; Python's
`defaultdict(OrderedDict)` yields the empty bucket for absent
frequencies. -/
def bget (bs : List (Int × List Int)) (f : Int) : List Int :=
  match bs.find? (fun p => p.1 == f) with
  | some p => p.2
  | none => []

/-- Assignment of a whole bucket for frequency `f`. -/
def bset (bs : List (Int × List Int)) (f : Int) (ks : List Int) : List (Int × List Int) :=
  if bs.any (fun p => p.1 == f) then bs.map (fun p => if p.1 == f then (p.1, ks) else p)
  else bs ++ [(f, ks)]

/-- Removal of the bucket for frequency `f` (Python `dict.pop(f, None)`). -/
def berase (bs : List (Int × List Int)) (f : Int) : List (Int × List Int) :=
  bs.filter (fun p => p.1 != f)

/-- Ordered-set insertion used for `bucket[key] = None`: appends a fresh
key, keeps the position of a present one. -/
def kset (ks : List Int) (k : Int) : List Int :=
  if ks.contains k then ks else ks ++ [k]

/-- State of `LFUCache`. -/
structure LFUSt where
  cap : Int
  items : List (Int × Int)
  freq : List (Int × Int)
  buckets : List (Int × List Int)
  used : Int
  minFreq : Int
  hits : Int
  misses : Int
deriving Repr, DecidableEq

/-- `LFUCache.__init__`. -/
def lfuInit (cap : Int) : LFUSt :=
  ⟨cap, [], [], [], 0, 0, 0, 0⟩

/-- `LFUCache._bump_freq`; callers guarantee the key has a recorded
frequency. -/
def lfuBumpFreq (st : LFUSt) (k : Int) : LFUSt :=
  let f := (dget st.freq k).getD 0
  let bk := (bget st.buckets f).filter (fun x => x != k)
  let st1 := { st with buckets := bset st.buckets f bk }
  let st2 :=
    if bk = [] ∧ st1.minFreq = f then { st1 with minFreq := st1.minFreq + 1 } else st1
  { st2 with freq := dset st2.freq k (f + 1),
             buckets := bset st2.buckets (f + 1) (kset (bget st2.buckets (f + 1)) k) }

/-- `LFUCache._evict`: pop the oldest key of the `min_freq` bucket; when
the bucket is already empty the state is returned unchanged — the caller
loop then makes no progress. -/
def lfuEvict (st : LFUSt) : LFUSt :=
  match bget st.buckets st.minFreq with
  | [] => st
  | k :: rest =>
    let sz := (dget st.items k).getD 0
    let st1 := { st with items := derase st.items k, freq := derase st.freq k,
                         used := st.used - sz }
    if rest = [] then { st1 with buckets := berase st1.buckets st1.minFreq }
    else { st1 with buckets := bset st1.buckets st1.minFreq rest }

/-- Eviction loop of `LFUCache._insert`, with explicit fuel: the source
loop `while used + size > capacity and items` can fail to make progress
(see `lfuEvict` on an empty bucket), so no fuel bound is exact in
general; the Python semantics is the limit over all fuels. -/
def lfuEvictLoop : Nat → Int → LFUSt → LFUSt
  | 0, _, st => st
  | fuel + 1, s, st =>
    if st.used + s > st.cap ∧ st.items ≠ [] then lfuEvictLoop fuel s (lfuEvict st)
    else st

/-- `LFUCache._insert` at a given eviction fuel. -/
def lfuInsert (fuel : Nat) (st : LFUSt) (k s : Int) : LFUSt :=
  if s > st.cap then st
  else
    let st1 := lfuEvictLoop fuel s st
    { st1 with items := dset st1.items k s, used := st1.used + s,
               freq := dset st1.freq k 1,
               buckets := bset st1.buckets 1 (kset (bget st1.buckets 1) k),
               minFreq := 1 }

/-- `LFUCache.get` at a given eviction fuel. -/
def lfuGet (fuel : Nat) (st : LFUSt) (k s : Int) : LFUSt × CacheLookup :=
  if dhas st.items k then
    (lfuBumpFreq { st with hits := st.hits + 1 } k, ⟨true, "l1"⟩)
  else
    (lfuInsert fuel { st with misses := st.misses + 1 } k s, ⟨false, "miss"⟩)

/-- `LFUCache.put` at a given eviction fuel: an existing key is resized in
place (no eviction pass) and its frequency bumped. -/
def lfuPut (fuel : Nat) (st : LFUSt) (k s : Int) : LFUSt :=
  if dhas st.items k then
    let existing := (dget st.items k).getD 0
    lfuBumpFreq { st with used := st.used - existing + s, items := dset st.items k s } k
  else lfuInsert fuel st k s

/-! ## 2Q cache (`cache/twoq.py`)

The constructor computes `a1in_capacity` and `a1out_capacity` as
`int(capacity_bytes * clamp(fraction))`; the embedding takes those
already-computed integers as parameters, so theorems quantifying over
them cover every fraction. -/

/-- State of `TwoQCache`: FIFO admission queue A1in, ghost queue A1out,
hot LRU Am, byte and hit/miss counters. -/
structure TwoQSt where
  cap : Int
  a1inCap : Int
  a1outCap : Int
  a1in : List (Int × Int)
  a1out : List (Int × Int)
  am : List (Int × Int)
  a1inBytes : Int
  amBytes : Int
  hits : Int
  misses : Int
deriving Repr, DecidableEq

/-- `TwoQCache.__init__` with the slice capacities already in bytes. -/
def twoqInit (cap a1inCap a1outCap : Int) : TwoQSt :=
  ⟨cap, a1inCap, a1outCap, [], [], [], 0, 0, 0, 0⟩

/-- Loop of `TwoQCache._trim_a1out`: pop the oldest ghost while the ghost
byte total exceeds the A1out slice. -/
def twoqTrimLoop (a1outCap : Int) : Nat → Int → List (Int × Int) → List (Int × Int)
  | 0, _, g => g
  | fuel + 1, total, g =>
    match g with
    | [] => g
    | (_, sz) :: rest =>
      if total > a1outCap then twoqTrimLoop a1outCap fuel (total - sz) rest else g

/-- `TwoQCache._trim_a1out`. -/
def twoqTrimA1out (st : TwoQSt) : TwoQSt :=
  { st with a1out := twoqTrimLoop st.a1outCap st.a1out.length ((st.a1out.map (·.2)).sum) st.a1out }

/-- One iteration body of `TwoQCache._evict_if_needed`; returns `none` on
the `break` branch. -/
def twoqEvictStep (st : TwoQSt) : Option TwoQSt :=
  if st.a1in ≠ [] ∧ st.a1inBytes > st.a1inCap then
    match st.a1in with
    | [] => none
    | (ek, es) :: rest =>
      some (twoqTrimA1out
        { st with a1in := rest, a1inBytes := st.a1inBytes - es, a1out := dset st.a1out ek es })
  else
    match st.am with
    | (ek, es) :: rest =>
      some (twoqTrimA1out
        { st with am := rest, amBytes := st.amBytes - es, a1out := dset st.a1out ek es })
    | [] =>
      match st.a1in with
      | (ek, es) :: rest =>
        some (twoqTrimA1out
          { st with a1in := rest, a1inBytes := st.a1inBytes - es, a1out := dset st.a1out ek es })
      | [] => none

/-- Loop of `TwoQCache._evict_if_needed`: while the resident byte total
exceeds capacity, move a victim to A1out; each continuing iteration pops
one resident entry, so fuel `|A1in| + |Am| + 1` is exact. -/
def twoqEvictLoop : Nat → TwoQSt → TwoQSt
  | 0, st => st
  | fuel + 1, st =>
    if st.a1inBytes + st.amBytes > st.cap then
      match twoqEvictStep st with
      | some st1 => twoqEvictLoop fuel st1
      | none => st
    else st

/-- `TwoQCache._evict_if_needed`. -/
def twoqEvict (st : TwoQSt) : TwoQSt :=
  twoqEvictLoop (st.a1in.length + st.am.length + 1) st

/-- `TwoQCache._insert_a1in`. -/
def twoqInsertA1in (st : TwoQSt) (k s : Int) : TwoQSt :=
  if s > st.cap then st
  else twoqEvict { st with a1in := dset st.a1in k s, a1inBytes := st.a1inBytes + s }

/-- `TwoQCache._insert_am`. -/
def twoqInsertAm (st : TwoQSt) (k s : Int) : TwoQSt :=
  if s > st.cap then st
  else twoqEvict { st with am := dset st.am k s, amBytes := st.amBytes + s }

/-- `TwoQCache.get`. -/
def twoqGet (st : TwoQSt) (k s : Int) : TwoQSt × CacheLookup :=
  if dhas st.am k then
    ({ st with am := dmove st.am k, hits := st.hits + 1 }, ⟨true, "l1"⟩)
  else
    match dget st.a1in k with
    | some sz =>
      let st1 := { st with a1in := derase st.a1in k, a1inBytes := st.a1inBytes - sz,
                           am := dset st.am k sz, amBytes := st.amBytes + sz,
                           hits := st.hits + 1 }
      (twoqEvict st1, ⟨true, "l1"⟩)
    | none =>
      if dhas st.a1out k then
        let st1 := { st with misses := st.misses + 1, a1out := derase st.a1out k }
        (twoqInsertAm st1 k s, ⟨false, "miss"⟩)
      else
        (twoqInsertA1in { st with misses := st.misses + 1 } k s, ⟨false, "miss"⟩)

/-- `TwoQCache.put`. -/
def twoqPut (st : TwoQSt) (k s : Int) : TwoQSt :=
  match dget st.am k with
  | some sz =>
    twoqInsertAm { st with am := derase st.am k, amBytes := st.amBytes - sz } k s
  | none =>
    match dget st.a1in k with
    | some sz =>
      twoqInsertA1in { st with a1in := derase st.a1in k, a1inBytes := st.a1inBytes - sz } k s
    | none =>
      if dhas st.a1out k then
        twoqInsertAm { st with a1out := derase st.a1out k } k s
      else twoqInsertA1in st k s

/-! ## Priority LRU cache (`cache/priority_lru.py`) -/

/-- Bucket for a priority; Python's `defaultdict(OrderedDict)` yields the
empty bucket for absent priorities. -/
def pbget (bs : List (Int × List (Int × Int))) (pr : Int) : List (Int × Int) :=
  match bs.find? (fun p => p.1 == pr) with
  | some p => p.2
  | none => []

/-- Assignment of a whole priority bucket. -/
def pbset (bs : List (Int × List (Int × Int))) (pr : Int) (bk : List (Int × Int)) :
    List (Int × List (Int × Int)) :=
  if bs.any (fun p => p.1 == pr) then bs.map (fun p => if p.1 == pr then (p.1, bk) else p)
  else bs ++ [(pr, bk)]

/-- Removal of a priority bucket (Python `dict.pop(pr, None)`). -/
def pberase (bs : List (Int × List (Int × Int))) (pr : Int) : List (Int × List (Int × Int)) :=
  bs.filter (fun p => p.1 != pr)

/-- Insertion sort step for ascending integer order. -/
def insSorted (x : Int) : List Int → List Int
  | [] => [x]
  | y :: ys => if x ≤ y then x :: y :: ys else y :: insSorted x ys

/-- Ascending sort of a list of integers (Python `sorted`). -/
def sortInts (l : List Int) : List Int :=
  l.foldr insSorted []

/-- State of `PriorityLRUCache`. -/
structure PrioSt where
  cap : Int
  buckets : List (Int × List (Int × Int))
  priorities : List (Int × Int)
  pinned : List Int
  used : Int
  hits : Int
  misses : Int
deriving Repr, DecidableEq

/-- `PriorityLRUCache.__init__`. -/
def prioInit (cap : Int) : PrioSt :=
  ⟨cap, [], [], [], 0, 0, 0⟩

/-- First non-pinned key of a bucket, in LRU order. -/
def firstUnpinned (pinned : List Int) : List (Int × Int) → Option Int
  | [] => none
  | (k, _) :: rest => if pinned.contains k then firstUnpinned pinned rest else some k

/-- First pass of `PriorityLRUCache._select_victim` over ascending
priorities: the LRU non-pinned key. -/
def prioVictimPass1 (st : PrioSt) : List Int → Option (Int × Int)
  | [] => none
  | pr :: rest =>
    match firstUnpinned st.pinned (pbget st.buckets pr) with
    | some k => some (k, pr)
    | none => prioVictimPass1 st rest

/-- Fallback pass of `PriorityLRUCache._select_victim`: everything is
pinned, take the lowest-priority LRU key regardless of pin. -/
def prioVictimPass2 (st : PrioSt) : List Int → Option (Int × Int)
  | [] => none
  | pr :: rest =>
    match pbget st.buckets pr with
    | (k, _) :: _ => some (k, pr)
    | [] => prioVictimPass2 st rest

/-- `PriorityLRUCache._select_victim`. -/
def prioSelectVictim (st : PrioSt) : Option (Int × Int) :=
  let prs := sortInts (st.buckets.map (·.1))
  match prioVictimPass1 st prs with
  | some v => some v
  | none => prioVictimPass2 st prs

/-- Loop of `PriorityLRUCache._evict_if_needed`; each continuing
iteration removes the victim from its bucket, so the total bucket entry
count plus one is an exact fuel. -/
def prioEvictLoop : Nat → Int → PrioSt → PrioSt
  | 0, _, st => st
  | fuel + 1, s, st =>
    if st.used + s > st.cap then
      match prioSelectVictim st with
      | none => st
      | some (k, pr) =>
        let bk := pbget st.buckets pr
        let sz := (dget bk k).getD 0
        let bk1 := derase bk k
        let st1 := { st with priorities := derase st.priorities k,
                             pinned := st.pinned.filter (fun x => x != k),
                             used := st.used - sz,
                             buckets := if bk1 = [] then pberase st.buckets pr
                                        else pbset st.buckets pr bk1 }
        prioEvictLoop fuel s st1
    else st

/-- `PriorityLRUCache._evict_if_needed`. -/
def prioEvict (st : PrioSt) (s : Int) : PrioSt :=
  prioEvictLoop ((st.buckets.map (fun b => b.2.length)).sum + 1) s st

/-- `PriorityLRUCache._insert`. -/
def prioInsert (st : PrioSt) (k s : Int) (md : Option CacheMetadata) : PrioSt :=
  if s > st.cap then st
  else
    let pr := match md with | some m => m.priority | none => 0
    let st1 :=
      match md with
      | some m =>
        if m.pinned then
          { st with pinned := if st.pinned.contains k then st.pinned else st.pinned ++ [k] }
        else st
      | none => st
    let st2 := prioEvict st1 s
    { st2 with priorities := dset st2.priorities k pr,
               buckets := pbset st2.buckets pr (dset (pbget st2.buckets pr) k s),
               used := st2.used + s }

/-- `PriorityLRUCache.get`: a key with a recorded priority counts as a hit
even when its bucket entry is gone. -/
def prioGet (st : PrioSt) (k s : Int) (md : Option CacheMetadata) : PrioSt × CacheLookup :=
  match dget st.priorities k with
  | some pr =>
    let bk := pbget st.buckets pr
    let st1 :=
      if dhas bk k then { st with buckets := pbset st.buckets pr (dmove bk k) } else st
    ({ st1 with hits := st1.hits + 1 }, ⟨true, "l1"⟩)
  | none =>
    (prioInsert { st with misses := st.misses + 1 } k s md, ⟨false, "miss"⟩)

/-- `PriorityLRUCache.put`. -/
def prioPut (st : PrioSt) (k s : Int) (md : Option CacheMetadata) : PrioSt :=
  let st1 :=
    match dget st.priorities k with
    | some pr =>
      let bk := pbget st.buckets pr
      match dget bk k with
      | some existing =>
        { st with buckets := pbset st.buckets pr (derase bk k), used := st.used - existing }
      | none => st
    | none => st
  prioInsert st1 k s md

/-- Item count reported by `PriorityLRUCache.stats` as `items`:
`len(self._priorities)`. -/
def prioItems (st : PrioSt) : Nat :=
  st.priorities.length

/-! ## Tenant-partitioned LRU cache (`cache/partitioned_lru.py`)

The per-partition LRU instances are the spec-modelled `LRUSt` above,
since `lru.py` is not among the provided sources. -/

/-- State of `PartitionedLRUCache`. -/
structure PartSt where
  cap : Int
  parts : Nat
  caches : List LRUSt
  hits : Int
  misses : Int
deriving Repr, DecidableEq

/-- `PartitionedLRUCache.__init__`: `partitions = max(1, partitions)`,
each slice holding `capacity_bytes // partitions` (Python floor
division). -/
def partInit (cap partitions : Int) : PartSt :=
  let p := max 1 partitions
  ⟨cap, p.toNat, List.replicate p.toNat (lruInit (Int.fdiv cap p)), 0, 0⟩

/-- `PartitionedLRUCache._select_partition`: `hash(tenant) % partitions`,
with a missing tenant mapping to partition 0; Python `hash` is the
identity on the embedded integer tenant ids and `%` is the flooring
modulus. -/
def partSelect (st : PartSt) (md : Option CacheMetadata) : Nat :=
  match md with
  | none => 0
  | some m =>
    match m.tenantId with
    | none => 0
    | some t => (Int.emod t (st.parts : Int)).toNat

/-- `PartitionedLRUCache.get`. -/
def partGet (st : PartSt) (k s : Int) (md : Option CacheMetadata) : PartSt × CacheLookup :=
  let idx := partSelect st md
  let c := st.caches.getD idx (lruInit 0)
  let (c1, r) := lruGet c k s
  let st1 := { st with caches := st.caches.set idx c1 }
  if r.hit then ({ st1 with hits := st1.hits + 1 }, r)
  else ({ st1 with misses := st1.misses + 1 }, r)

/-- `PartitionedLRUCache.put`. -/
def partPut (st : PartSt) (k s : Int) (md : Option CacheMetadata) : PartSt :=
  let idx := partSelect st md
  let c := st.caches.getD idx (lruInit 0)
  { st with caches := st.caches.set idx (lruPut c k s) }

/-! ## Hierarchical two-level LRU cache (`cache/hierarchical_lru.py`)

The two layers are the spec-modelled `LRUSt` above, since `lru.py` is not
among the provided sources; `hierarchical_lru.py` itself is embedded from
its source. -/

/-- State of `HierarchicalLRUCache`. -/
structure HierSt where
  l1 : LRUSt
  l2 : LRUSt
  l1Hits : Int
  l2Hits : Int
  misses : Int
deriving Repr, DecidableEq

/-- `HierarchicalLRUCache.__init__`. -/
def hierInit (c1 c2 : Int) : HierSt :=
  ⟨lruInit c1, lruInit c2, 0, 0, 0⟩

/-- `HierarchicalLRUCache.get`: L1 hit touches L1; L2 hit touches L2 and
promotes a copy into L1 via `l1.get`; a miss admits into L2 only. -/
def hierGet (st : HierSt) (k s : Int) : HierSt × CacheLookup :=
  if lruContains st.l1 k then
    ({ st with l1Hits := st.l1Hits + 1, l1 := (lruGet st.l1 k s).1 }, ⟨true, "l1"⟩)
  else if lruContains st.l2 k then
    ({ st with l2Hits := st.l2Hits + 1, l2 := (lruGet st.l2 k s).1,
               l1 := (lruGet st.l1 k s).1 }, ⟨true, "l2"⟩)
  else
    ({ st with misses := st.misses + 1, l2 := (lruGet st.l2 k s).1 }, ⟨false, "miss"⟩)

/-- `HierarchicalLRUCache.put`: writes into L2 only. -/
def hierPut (st : HierSt) (k s : Int) : HierSt :=
  { st with l2 := lruPut st.l2 k s }

/-! ## Replay engine block walk (`simulator/engine.py`, `Simulator.handle_request`)

The block branch of `handle_request` is embedded generically over the
cache: `getOp`/`putOp` stand for `cache.get`/`cache.put` (the metadata
argument is part of the closure).  The walk takes the zipped list of
`(block_id, tokens)` pairs produced by `zip(req.block_hashes,
_split_tokens(...))` and threads the `prefix_active` flag; it additionally
returns the per-block credited flags and the `cache.put` calls issued, in
order, which are the observables the temporal claim is about. -/

/-- Per-request byte/token ledger accumulated by the block walk. -/
structure WalkLedger where
  prefixHits : Nat
  hitTokens : Int
  l1Bytes : Int
  l2Bytes : Int
  missBytes : Int
  readBytes : Int
  writeBytes : Int
deriving Repr, DecidableEq

/-- Empty ledger. -/
def walkLedgerInit : WalkLedger :=
  ⟨0, 0, 0, 0, 0, 0, 0⟩

/-- The prefix-locked block walk of `Simulator.handle_request`: per block,
`kv_bytes = tokens * model_kv_bytes_per_token`; while the prefix is
active, a `get` hit credits the block; the first miss deactivates the
prefix and from then on every block adds `kv_bytes` to `miss_bytes` and
`write_bytes` and is deposited with `put` (the missing block itself after
its `get`). -/
def walkBlocks {σ : Type} (getOp : σ → Int → Int → σ × CacheLookup)
    (putOp : σ → Int → Int → σ) (bpt : Int) :
    List (Int × Int) → σ → Bool → σ × WalkLedger × List Bool × List (Int × Int)
  | [], st, _ => (st, walkLedgerInit, [], [])
  | (bid, tok) :: rest, st, false =>
    let kv := tok * bpt
    let st1 := putOp st bid kv
    let r := walkBlocks getOp putOp bpt rest st1 false
    (r.1,
     { r.2.1 with missBytes := r.2.1.missBytes + kv,
                  writeBytes := r.2.1.writeBytes + kv },
     false :: r.2.2.1, (bid, kv) :: r.2.2.2)
  | (bid, tok) :: rest, st, true =>
    let kv := tok * bpt
    let step := getOp st bid kv
    match step.2.hit with
    | true =>
      let r := walkBlocks getOp putOp bpt rest step.1 true
      (r.1,
       { r.2.1 with prefixHits := r.2.1.prefixHits + 1,
                    hitTokens := r.2.1.hitTokens + tok,
                    readBytes := r.2.1.readBytes + kv,
                    l1Bytes := if step.2.level = "l2" then r.2.1.l1Bytes
                               else r.2.1.l1Bytes + kv,
                    l2Bytes := if step.2.level = "l2" then r.2.1.l2Bytes + kv
                               else r.2.1.l2Bytes },
       true :: r.2.2.1, r.2.2.2)
    | false =>
      let st2 := putOp step.1 bid kv
      let r := walkBlocks getOp putOp bpt rest st2 false
      (r.1,
       { r.2.1 with missBytes := r.2.1.missBytes + kv,
                    writeBytes := r.2.1.writeBytes + kv },
       false :: r.2.2.1, (bid, kv) :: r.2.2.2)

/-! ## Prefix lock of the replay engine (C2) -/

/-- Shape of a correct prefix-locked walk outcome: the credited flags are
a block of `true` followed only by `false`, and the blocks at or after
the first miss are exactly the ones put back and accounted as miss/write
bytes. -/
def walkSpecOk (blocks : List (Int × Int)) (bpt : Int) (led : WalkLedger)
    (flags : List Bool) (puts : List (Int × Int)) : Prop :=
  flags = List.replicate led.prefixHits true ++
    List.replicate (blocks.length - led.prefixHits) false ∧
  puts = (blocks.drop led.prefixHits).map (fun p => (p.1, p.2 * bpt)) ∧
  led.missBytes = ((blocks.drop led.prefixHits).map (fun p => p.2 * bpt)).sum ∧
  led.writeBytes = led.missBytes

/-! ## Operation sequences and runners (C6) -/

/-- One cache operation of a replayed sequence. -/
inductive CacheOp where
  | opGet : Int → Int → Option CacheMetadata → CacheOp
  | opPut : Int → Int → Option CacheMetadata → CacheOp
deriving Repr, DecidableEq

/-- Run a sequence of operations against the TTL cache, collecting each
`get` result. -/
def ttlRun : TTLSt → List CacheOp → TTLSt × List (Option CacheLookup)
  | st, [] => (st, [])
  | st, .opGet k s md :: ops =>
    let r := ttlGet st k s md
    let rest := ttlRun r.1 ops
    (rest.1, some r.2 :: rest.2)
  | st, .opPut k s md :: ops =>
    let rest := ttlRun (ttlPut st k s md) ops
    (rest.1, none :: rest.2)

/-- Run a sequence of operations against the spec-modelled LRU cache
(metadata is ignored), collecting each `get` result. -/
def lruRun : LRUSt → List CacheOp → LRUSt × List (Option CacheLookup)
  | st, [] => (st, [])
  | st, .opGet k s _ :: ops =>
    let r := lruGet st k s
    let rest := lruRun r.1 ops
    (rest.1, some r.2 :: rest.2)
  | st, .opPut k s _ :: ops =>
    let rest := lruRun (lruPut st k s) ops
    (rest.1, none :: rest.2)

/-- Run a sequence of operations against the spec-modelled FIFO cache
(metadata is ignored), collecting each `get` result. -/
def fifoRun : FIFOSt → List CacheOp → FIFOSt × List (Option CacheLookup)
  | st, [] => (st, [])
  | st, .opGet k s _ :: ops =>
    let r := fifoGet st k s
    let rest := fifoRun r.1 ops
    (rest.1, some r.2 :: rest.2)
  | st, .opPut k s _ :: ops =>
    let rest := fifoRun (fifoPut st k s) ops
    (rest.1, none :: rest.2)

/-- Simulation relation between a TTL cache with `ttl_ms = 0` and the
spec-modelled LRU cache: same items in the same order, no expiry map,
and equal byte and hit/miss counters (the TTL clock is unobservable). -/
def ttl0Rel (t : TTLSt) (l : LRUSt) : Prop :=
  t.ttl = 0 ∧ t.expiry = [] ∧ t.cap = l.cap ∧ t.items = l.items ∧ t.used = l.used ∧
  t.hits = l.hits ∧ t.misses = l.misses ∧ (dkeys t.items).Nodup

/-- Pairwise disjointness of the three 2Q structures with duplicate-free
key lists — the invariant of claim C10. -/
def twoqInv (st : TwoQSt) : Prop :=
  (dkeys st.a1in).Nodup ∧ (dkeys st.am).Nodup ∧ (dkeys st.a1out).Nodup ∧
  (dkeys st.a1in).Disjoint (dkeys st.am) ∧ (dkeys st.a1in).Disjoint (dkeys st.a1out) ∧
  (dkeys st.am).Disjoint (dkeys st.a1out)

/-- Run a sequence of operations against the 2Q cache (metadata is
ignored by the policy). -/
def twoqRun : TwoQSt → List CacheOp → TwoQSt
  | st, [] => st
  | st, .opGet k s _ :: ops => twoqRun (twoqGet st k s).1 ops
  | st, .opPut k s _ :: ops => twoqRun (twoqPut st k s) ops

/-- Reachable LFU state just before the diverging insert: capacity 100,
after `get(1,80)`, `get(1,80)`, `get(2,10)` — key 1 has frequency 2, key
2 frequency 1, 90 bytes used. -/
def c4Start : LFUSt :=
  (lfuGet 4 ((lfuGet 4 ((lfuGet 4 (lfuInit 100) 1 80).1) 1 80).1) 2 10).1

/-- State after the first pass of the eviction loop inside `get(3, 50)`:
key 2 has been evicted and its frequency bucket deleted, but `min_freq`
still points at the now-missing bucket 1, so `_evict` returns without
progress while 130 bytes of demand exceed the 100-byte capacity. -/
def c4Stuck : LFUSt :=
  lfuEvict { c4Start with misses := c4Start.misses + 1 }

/-! ## MRU cache (`cache/mru.py`) -/

/-- State of `MRUCache`. -/
structure MRUSt where
  cap : Int
  items : List (Int × Int)
  used : Int
  hits : Int
  misses : Int
deriving Repr, DecidableEq

/-- `MRUCache.__init__`. -/
def mruInit (cap : Int) : MRUSt :=
  ⟨cap, [], 0, 0, 0⟩

/-- Eviction loop of `MRUCache._insert`: pop the most-recently-used end
(`popitem(last=True)`) while `used + size > capacity`; fuel
`items.length` dominates the iteration count. -/
def mruEvictLoop : Nat → Int → MRUSt → MRUSt
  | 0, _, st => st
  | fuel + 1, s, st =>
    match st.items.getLast? with
    | none => st
    | some (_, sz) =>
      if st.used + s > st.cap then
        mruEvictLoop fuel s { st with items := st.items.dropLast, used := st.used - sz }
      else st

/-- `MRUCache._insert`. -/
def mruInsert (st : MRUSt) (k s : Int) : MRUSt :=
  if s > st.cap then st
  else
    let st1 := mruEvictLoop st.items.length s st
    { st1 with items := dset st1.items k s, used := st1.used + s }

/-- `MRUCache.get`. -/
def mruGet (st : MRUSt) (k s : Int) : MRUSt × CacheLookup :=
  if dhas st.items k then
    ({ st with items := dmove st.items k, hits := st.hits + 1 }, ⟨true, "l1"⟩)
  else
    (mruInsert { st with misses := st.misses + 1 } k s, ⟨false, "miss"⟩)

/-- `MRUCache.put`. -/
def mruPut (st : MRUSt) (k s : Int) : MRUSt :=
  let st1 :=
    match dget st.items k with
    | some sz => { st with items := derase st.items k, used := st.used - sz }
    | none => st
  mruInsert st1 k s

/-! ## Generic association-list helpers for structured values

The CLOCK-Pro entries map integer keys to `(size, ref, hot)` records, so
the dictionary helpers are repeated polymorphically in the value type. -/

/-- First value bound to key `k` (Python `d[k]` / `d.get(k)`). -/
def aget {α : Type} (l : List (Int × α)) (k : Int) : Option α :=
  (l.find? (fun p => p.1 == k)).map (·.2)

/-- Key membership (Python `k in d`). -/
def ahas {α : Type} (l : List (Int × α)) (k : Int) : Bool :=
  l.any (fun p => p.1 == k)

/-- Removal of key `k` (Python `d.pop(k, None)`). -/
def aerase {α : Type} (l : List (Int × α)) (k : Int) : List (Int × α) :=
  l.filter (fun p => p.1 != k)

/-- Dictionary assignment `d[k] = v`: update in place when present,
append otherwise. -/
def aset {α : Type} (l : List (Int × α)) (k : Int) (v : α) : List (Int × α) :=
  if ahas l k then l.map (fun p => if p.1 == k then (p.1, v) else p)
  else l ++ [(k, v)]

/-! ## LRU-K cache (`cache/lruk.py`) -/

/-- State of `LRUKCache`: per-key access history of up to `k` logical
timestamps (oldest first) and a logical clock ticked on every op. -/
structure LRUKSt where
  cap : Int
  kParam : Int
  items : List (Int × Int)
  history : List (Int × List Int)
  used : Int
  hits : Int
  misses : Int
  clock : Int
deriving Repr, DecidableEq

/-- `LRUKCache.__init__`: `k = max(1, int(k))`. -/
def lrukInit (cap kParam : Int) : LRUKSt :=
  ⟨cap, max 1 kParam, [], [], 0, 0, 0, 0⟩

/-- A bounded history append (`deque(maxlen=k)`): keep the most recent
`k` timestamps. -/
def histAppend (kParam : Int) (h : List Int) (ts : Int) : List Int :=
  let h2 := h ++ [ts]
  if (h2.length : Int) > kParam then h2.drop (h2.length - kParam.toNat) else h2

/-- `LRUKCache._record_access`. -/
def lrukRecord (st : LRUKSt) (k : Int) : LRUKSt :=
  { st with history := bset st.history k (histAppend st.kParam (bget st.history k) st.clock) }

/-- Victim score of `LRUKCache._evict`: the k-th most recent timestamp
when the history is full, else the last-seen timestamp, else −1. -/
def lrukScore (st : LRUKSt) (key : Int) : Int :=
  let h := bget st.history key
  if (h.length : Int) ≥ st.kParam then h.headD (-1)
  else
    match h.getLast? with
    | some t => t
    | none => -1

/-- The scan of `LRUKCache._evict` over the items in insertion order:
first key of strictly minimal score. -/
def lrukVictimGo (st : LRUKSt) : List Int → Option (Int × Int) → Option Int
  | [], acc => acc.map (·.1)
  | key :: rest, acc =>
    match acc with
    | none => lrukVictimGo st rest (some (key, lrukScore st key))
    | some (v, vs) =>
      if lrukScore st key < vs then lrukVictimGo st rest (some (key, lrukScore st key))
      else lrukVictimGo st rest (some (v, vs))

/-- `LRUKCache._evict`: drop the victim; history is retained. -/
def lrukEvict (st : LRUKSt) : LRUKSt :=
  match st.items with
  | [] => st
  | _ =>
    match lrukVictimGo st (dkeys st.items) none with
    | none => st
    | some v =>
      { st with items := derase st.items v, used := st.used - (dget st.items v).getD 0 }

/-- Eviction loop of `LRUKCache._insert`; every pass evicts one item, so
fuel `items.length` dominates the iteration count. -/
def lrukEvictLoop : Nat → Int → LRUKSt → LRUKSt
  | 0, _, st => st
  | fuel + 1, s, st =>
    if st.used + s > st.cap ∧ st.items ≠ [] then lrukEvictLoop fuel s (lrukEvict st)
    else st

/-- `LRUKCache._insert`. -/
def lrukInsert (st : LRUKSt) (k s : Int) : LRUKSt :=
  if s > st.cap then st
  else
    let st1 := lrukEvictLoop st.items.length s st
    { st1 with items := dset st1.items k s, used := st1.used + s }

/-- `LRUKCache.get`: tick the clock and record the access first. -/
def lrukGet (st : LRUKSt) (k s : Int) : LRUKSt × CacheLookup :=
  let st0 := lrukRecord { st with clock := st.clock + 1 } k
  if dhas st0.items k then
    ({ st0 with hits := st0.hits + 1 }, ⟨true, "l1"⟩)
  else
    (lrukInsert { st0 with misses := st0.misses + 1 } k s, ⟨false, "miss"⟩)

/-- `LRUKCache.put`: tick the clock and record the access first. -/
def lrukPut (st : LRUKSt) (k s : Int) : LRUKSt :=
  let st0 := lrukRecord { st with clock := st.clock + 1 } k
  let st1 :=
    if dhas st0.items k then
      { st0 with used := st0.used - (dget st0.items k).getD 0, items := derase st0.items k }
    else st0
  lrukInsert st1 k s

/-! ## CLOCK cache (`cache/clock.py`) -/

/-- State of `ClockCache`: items, reference bits, and the ring as a
queue whose front is the hand (tombstones are keys no longer in
`items`). -/
structure ClockSt where
  cap : Int
  items : List (Int × Int)
  refBits : List (Int × Int)
  queue : List Int
  used : Int
  hits : Int
  misses : Int
deriving Repr, DecidableEq

/-- `ClockCache.__init__`. -/
def clockInit (cap : Int) : ClockSt :=
  ⟨cap, [], [], [], 0, 0, 0⟩

/-- Inner sweep of `ClockCache._evict_one`: skip tombstones, take a
zero-bit slot, else clear the bit and rotate.  Every pass pops a queue
cell or clears a set bit, so fuel `2·|queue| + 1` dominates the
iteration count. -/
def clockEvictOneLoop : Nat → ClockSt → ClockSt
  | 0, st => st
  | fuel + 1, st =>
    match st.queue with
    | [] => st
    | cand :: rest =>
      if dhas st.items cand then
        if (dget st.refBits cand).getD 0 = 0 then
          { st with queue := rest, items := derase st.items cand,
                    refBits := derase st.refBits cand,
                    used := st.used - (dget st.items cand).getD 0 }
        else
          clockEvictOneLoop fuel
            { st with refBits := dset st.refBits cand 0, queue := rest ++ [cand] }
      else clockEvictOneLoop fuel { st with queue := rest }

/-- `ClockCache._evict_one`. -/
def clockEvictOne (st : ClockSt) : ClockSt :=
  clockEvictOneLoop (2 * st.queue.length + 1) st

/-- Eviction loop of `ClockCache._insert`, with explicit fuel: when no
queue cell survives in `items`, `_evict_one` makes no progress, so the
Python semantics is the limit over all fuels. -/
def clockEvictLoop : Nat → Int → ClockSt → ClockSt
  | 0, _, st => st
  | fuel + 1, s, st =>
    if st.used + s > st.cap ∧ st.items ≠ [] then clockEvictLoop fuel s (clockEvictOne st)
    else st

/-- `ClockCache._insert` at a given eviction fuel. -/
def clockInsert (fuel : Nat) (st : ClockSt) (k s : Int) : ClockSt :=
  if s > st.cap then st
  else
    let st1 := clockEvictLoop fuel s st
    { st1 with items := dset st1.items k s, refBits := dset st1.refBits k 1,
               queue := st1.queue ++ [k], used := st1.used + s }

/-- `ClockCache.get` at a given eviction fuel. -/
def clockGet (fuel : Nat) (st : ClockSt) (k s : Int) : ClockSt × CacheLookup :=
  if dhas st.items k then
    ({ st with refBits := dset st.refBits k 1, hits := st.hits + 1 }, ⟨true, "l1"⟩)
  else
    (clockInsert fuel { st with misses := st.misses + 1 } k s, ⟨false, "miss"⟩)

/-- `ClockCache.put` at a given eviction fuel. -/
def clockPut (fuel : Nat) (st : ClockSt) (k s : Int) : ClockSt :=
  let st1 :=
    if dhas st.items k then
      { st with used := st.used - (dget st.items k).getD 0,
                items := derase st.items k, refBits := derase st.refBits k }
    else st
  clockInsert fuel st1 k s

/-! ## CLOCK-Pro cache (`cache/clockpro.py`) -/

/-- A resident CLOCK-Pro entry, mirroring `_Entry`. -/
structure CPEntry where
  size : Int
  ref : Int
  hot : Bool
deriving Repr, DecidableEq

/-- State of `ClockProCache`: entries, the ring order (front = hand),
the ghost FIFO with its membership set, and the hot-byte accounting. -/
structure CPSt where
  cap : Int
  entries : List (Int × CPEntry)
  order : List Int
  ghost : List Int
  ghostSet : List Int
  used : Int
  hotBytes : Int
  hotTarget : Int
  hits : Int
  misses : Int
deriving Repr, DecidableEq

/-- `ClockProCache.__init__`: `hot_target = capacity_bytes // 2` (Python
floor division). -/
def cpInit (cap : Int) : CPSt :=
  ⟨cap, [], [], [], [], 0, 0, Int.fdiv cap 2, 0, 0⟩

/-- Removal of the first occurrence (Python `deque.remove`, the
swallowed `ValueError` leaving an absent key untouched). -/
def removeFirst : List Int → Int → List Int
  | [], _ => []
  | x :: rest, k => if x == k then rest else x :: removeFirst rest k

/-- `ClockProCache._trim_ghost`: drop the oldest ghosts while more than
`2·|entries|` are held. -/
def cpTrimLoop : Nat → CPSt → CPSt
  | 0, st => st
  | fuel + 1, st =>
    match st.ghost with
    | [] => st
    | old :: rest =>
      if st.ghostSet ≠ [] ∧ (st.ghost.length : Int) > 2 * st.entries.length then
        cpTrimLoop fuel { st with ghost := rest, ghostSet := st.ghostSet.filter (fun x => x != old) }
      else st

/-- `ClockProCache._trim_ghost`. -/
def cpTrimGhost (st : CPSt) : CPSt :=
  cpTrimLoop st.ghost.length st

/-- Inner sweep of `ClockProCache._evict_one`: skip tombstones; clear a
set reference bit (possibly promoting a cold page under target) and
rotate; demote a hot zero-bit page and rotate; evict a cold zero-bit
page to the ghost FIFO.  Every pass pops a cell or strictly lowers the
hand cell's `2·ref + hot` potential, so fuel `4·|order| + 1` dominates
the iteration count. -/
def cpEvictOneLoop : Nat → CPSt → CPSt
  | 0, st => st
  | fuel + 1, st =>
    match st.order with
    | [] => st
    | key :: rest =>
      match aget st.entries key with
      | none => cpEvictOneLoop fuel { st with order := rest }
      | some e =>
        if e.ref = 1 then
          if ¬ e.hot ∧ st.hotBytes < st.hotTarget then
            cpEvictOneLoop fuel
              { st with entries := aset st.entries key ⟨e.size, 0, true⟩,
                        hotBytes := st.hotBytes + e.size, order := rest ++ [key] }
          else
            cpEvictOneLoop fuel
              { st with entries := aset st.entries key ⟨e.size, 0, e.hot⟩,
                        order := rest ++ [key] }
        else if e.hot then
          cpEvictOneLoop fuel
            { st with entries := aset st.entries key ⟨e.size, e.ref, false⟩,
                      hotBytes := st.hotBytes - e.size, order := rest ++ [key] }
        else
          cpTrimGhost
            { st with order := rest, entries := aerase st.entries key,
                      used := st.used - e.size, ghost := st.ghost ++ [key],
                      ghostSet := if st.ghostSet.contains key then st.ghostSet
                                  else st.ghostSet ++ [key] }

/-- `ClockProCache._evict_one`. -/
def cpEvictOne (st : CPSt) : CPSt :=
  cpEvictOneLoop (4 * st.order.length + 1) st

/-- Eviction loop of `ClockProCache._insert`, with explicit fuel: when
the ring holds no resident cell, `_evict_one` makes no progress, so the
Python semantics is the limit over all fuels. -/
def cpEvictLoop : Nat → Int → CPSt → CPSt
  | 0, _, st => st
  | fuel + 1, s, st =>
    if st.used + s > st.cap ∧ st.entries ≠ [] then cpEvictLoop fuel s (cpEvictOne st)
    else st

/-- `ClockProCache._insert` at a given eviction fuel: admit as cold with
the reference bit set. -/
def cpInsert (fuel : Nat) (st : CPSt) (k s : Int) : CPSt :=
  if s > st.cap then st
  else
    let st1 := cpEvictLoop fuel s st
    { st1 with entries := aset st1.entries k ⟨s, 1, false⟩,
               order := st1.order ++ [k], used := st1.used + s }

/-- `ClockProCache.get` at a given eviction fuel. -/
def cpGet (fuel : Nat) (st : CPSt) (k s : Int) : CPSt × CacheLookup :=
  match aget st.entries k with
  | some e =>
    let st1 :=
      if e.hot then { st with entries := aset st.entries k ⟨e.size, 1, true⟩ }
      else { st with entries := aset st.entries k ⟨e.size, 1, true⟩,
                     hotBytes := st.hotBytes + e.size }
    ({ st1 with hits := st1.hits + 1 }, ⟨true, "l1"⟩)
  | none =>
    let st1 := { st with misses := st.misses + 1 }
    let st2 :=
      if st1.ghostSet.contains k then
        { st1 with ghostSet := st1.ghostSet.filter (fun x => x != k),
                   ghost := removeFirst st1.ghost k,
                   hotTarget := min st1.cap (st1.hotTarget + s) }
      else { st1 with hotTarget := max 0 (st1.hotTarget - s) }
    (cpInsert fuel st2 k s, ⟨false, "miss"⟩)

/-- `ClockProCache.put` at a given eviction fuel. -/
def cpPut (fuel : Nat) (st : CPSt) (k s : Int) : CPSt :=
  let st1 :=
    match aget st.entries k with
    | some e =>
      { st with entries := aerase st.entries k, used := st.used - e.size,
                hotBytes := if e.hot then st.hotBytes - e.size else st.hotBytes,
                order := removeFirst st.order k }
    | none => st
  cpInsert fuel st1 k s

/-! ## 2Q well-formedness for the put-then-get property -/

/-- Byte-accounting consistency of a 2Q state: the A1in and Am byte
counters equal the sums of their entry sizes. -/
def twoqConsistent (st : TwoQSt) : Prop :=
  st.a1inBytes = (st.a1in.map (·.2)).sum ∧ st.amBytes = (st.am.map (·.2)).sum

/-- Well-formed 2Q state: consistent byte counters and duplicate-free
resident key lists, as in every state reachable from a fresh cache. -/
def twoqWF (st : TwoQSt) : Prop :=
  twoqConsistent st ∧ (dkeys st.a1in).Nodup ∧ (dkeys st.am).Nodup

/-! ## Theorems -/

/-- After the prefix has broken, every remaining block is deposited with
`put` and accounted as miss and write bytes; no block is credited. -/
theorem walkBlocks_inactive {σ : Type} (getOp : σ → Int → Int → σ × CacheLookup)
    (putOp : σ → Int → Int → σ) (bpt : Int) :
    ∀ (blocks : List (Int × Int)) (st : σ),
      (walkBlocks getOp putOp bpt blocks st false).2.1.prefixHits = 0 ∧
      (walkBlocks getOp putOp bpt blocks st false).2.2.1 =
        List.replicate blocks.length false ∧
      (walkBlocks getOp putOp bpt blocks st false).2.2.2 =
        blocks.map (fun p => (p.1, p.2 * bpt)) ∧
      (walkBlocks getOp putOp bpt blocks st false).2.1.missBytes =
        ((blocks.map (fun p => p.2 * bpt))).sum ∧
      (walkBlocks getOp putOp bpt blocks st false).2.1.writeBytes =
        (walkBlocks getOp putOp bpt blocks st false).2.1.missBytes
  | [], st => by simp [walkBlocks, walkLedgerInit]
  | (bid, tok) :: rest, st => by
    have ih := walkBlocks_inactive getOp putOp bpt rest (putOp st bid (tok * bpt))
    obtain ⟨ih1, ih2, ih3, ih4, ih5⟩ := ih
    simp only [walkBlocks, List.map_cons, List.sum_cons, List.length_cons,
      List.replicate_succ]
    exact ⟨ih1, by rw [ih2], by rw [ih3], by rw [ih4]; omega, by rw [ih5]⟩

/-- C2: during the replay of one request, once a block's `get` misses no
later block is credited as a hit: for every cache implementation, every
byte rate and every block list, the credited flags of the walk are the
`prefixHits` leading blocks and nothing after, and every block at or
after the first miss contributes its `kv_bytes` to `miss_bytes` and to
`write_bytes` and is deposited with `put` — even when such a block is
individually resident (no assumption on the cache state is made). -/
theorem C2_prefix_lock {σ : Type} (getOp : σ → Int → Int → σ × CacheLookup)
    (putOp : σ → Int → Int → σ) (bpt : Int) :
    ∀ (blocks : List (Int × Int)) (st : σ),
      walkSpecOk blocks bpt (walkBlocks getOp putOp bpt blocks st true).2.1
        (walkBlocks getOp putOp bpt blocks st true).2.2.1
        (walkBlocks getOp putOp bpt blocks st true).2.2.2
  | [], st => by simp [walkBlocks, walkSpecOk, walkLedgerInit]
  | (bid, tok) :: rest, st => by
    cases hhit : (getOp st bid (tok * bpt)).2.hit with
    | true =>
      have ih := C2_prefix_lock getOp putOp bpt rest (getOp st bid (tok * bpt)).1
      simp only [walkSpecOk] at ih ⊢
      obtain ⟨ih1, ih2, ih3, ih4⟩ := ih
      simp only [walkBlocks, hhit, List.length_cons]
      refine ⟨?_, ?_, ?_, ih4⟩
      · rw [ih1, List.replicate_succ, Nat.succ_sub_succ]
        simp
      · rw [ih2]
        rfl
      · rw [ih3]
        rfl
    | false =>
      have ih := walkBlocks_inactive getOp putOp bpt rest
        (putOp (getOp st bid (tok * bpt)).1 bid (tok * bpt))
      obtain ⟨ih1, ih2, ih3, ih4, ih5⟩ := ih
      simp only [walkSpecOk, walkBlocks, hhit, List.length_cons]
      refine ⟨?_, ?_, ?_, ?_⟩
      · rw [ih1, ih2]
        simp [List.replicate_succ]
      · rw [ih1, ih3]
        simp
      · rw [ih1, ih4]
        simp only [List.drop_zero, List.map_cons, List.sum_cons]
        omega
      · rw [ih5]

/-! ## Dictionary helper lemmas -/

/-- Lookup at a matching head. -/
theorem dget_cons_eq {p : Int × Int} (l : List (Int × Int)) {k : Int}
    (h : (p.1 == k) = true) : dget (p :: l) k = some p.2 := by
  simp [dget, List.find?_cons, h]

/-- Lookup skips a non-matching head. -/
theorem dget_cons_ne {p : Int × Int} (l : List (Int × Int)) {k : Int}
    (h : (p.1 == k) = false) : dget (p :: l) k = dget l k := by
  simp [dget, List.find?_cons, h]

/-- Membership equals definedness of lookup. -/
theorem dhas_eq_isSome_dget : ∀ (l : List (Int × Int)) (k : Int),
    dhas l k = (dget l k).isSome
  | [], _ => rfl
  | p :: rest, k => by
    cases hb : (p.1 == k) with
    | true => simp [dhas, List.any_cons, hb, dget_cons_eq rest hb]
    | false =>
      rw [dget_cons_ne rest hb, ← dhas_eq_isSome_dget rest k]
      simp [dhas, List.any_cons, hb]

/-- Lookup in an in-place update finds the new value. -/
theorem dget_map_update : ∀ (l : List (Int × Int)) (k v : Int), dhas l k = true →
    dget (l.map fun q => if q.1 == k then (q.1, v) else q) k = some v
  | [], k, v, h => by simp [dhas] at h
  | p :: rest, k, v, h => by
    cases hb : (p.1 == k) with
    | true =>
      have he : p.1 = k := by simpa using hb
      have hmap : ((p :: rest).map fun q => if q.1 == k then (q.1, v) else q) =
          (p.1, v) :: (rest.map fun q => if q.1 == k then (q.1, v) else q) := by
        simp [List.map_cons, he]
      rw [hmap, dget_cons_eq _ (show ((p.1, v).1 == k) = true from hb)]
    | false =>
      have h2 : dhas rest k = true := by
        simpa [dhas, List.any_cons, hb] using h
      have hne : ¬ p.1 = k := by simpa using hb
      have hmap : ((p :: rest).map fun q => if q.1 == k then (q.1, v) else q) =
          p :: (rest.map fun q => if q.1 == k then (q.1, v) else q) := by
        simp [List.map_cons, hne]
      rw [hmap, dget_cons_ne _ hb]
      exact dget_map_update rest k v h2

/-- Lookup in an appended fresh binding finds it. -/
theorem dget_append_fresh : ∀ (l : List (Int × Int)) (k v : Int), dhas l k = false →
    dget (l ++ [(k, v)]) k = some v
  | [], k, v, _ => by simp [dget, List.find?_cons]
  | p :: rest, k, v, h => by
    have hb : (p.1 == k) = false := by
      cases hc : (p.1 == k) with
      | true => simp [dhas, List.any_cons, hc] at h
      | false => rfl
    have h2 : dhas rest k = false := by
      simpa [dhas, List.any_cons, hb] using h
    rw [List.cons_append, dget_cons_ne _ hb]
    exact dget_append_fresh rest k v h2

/-- Lookup after assignment finds the assigned value. -/
theorem dget_dset_self (l : List (Int × Int)) (k v : Int) : dget (dset l k v) k = some v := by
  cases hh : dhas l k with
  | true =>
    rw [dset, if_pos hh]
    exact dget_map_update l k v hh
  | false =>
    rw [dset, if_neg (by simp [hh])]
    exact dget_append_fresh l k v hh

/-- Assignment makes the key present. -/
theorem dhas_dset_self (l : List (Int × Int)) (k v : Int) : dhas (dset l k v) k = true := by
  rw [dhas_eq_isSome_dget, dget_dset_self]
  rfl

/-! ## TTL frame lemmas and put-then-get (C7) -/

/-- `_advance` changes only the clock. -/
theorem ttlAdvance_fields (st : TTLSt) (md : Option CacheMetadata) :
    (ttlAdvance st md).items = st.items ∧ (ttlAdvance st md).expiry = st.expiry ∧
    (ttlAdvance st md).cap = st.cap ∧ (ttlAdvance st md).ttl = st.ttl := by
  cases md with
  | none => exact ⟨rfl, rfl, rfl, rfl⟩
  | some m =>
    obtain ⟨ts, pr, pin, ten⟩ := m
    cases ts with
    | none => exact ⟨rfl, rfl, rfl, rfl⟩
    | some t => by_cases h : t > 0 <;> simp [ttlAdvance, h]

/-- `_remove` keeps capacity, ttl and the clock. -/
theorem ttlRemove_frame (st : TTLSt) (k : Int) :
    (ttlRemove st k).cap = st.cap ∧ (ttlRemove st k).ttl = st.ttl ∧
    (ttlRemove st k).now = st.now := by
  cases hd : dget st.items k <;> simp [ttlRemove, hd]

/-- `_insert` leaves its key present when the size is admissible. -/
theorem ttlInsert_has (st : TTLSt) (k s now : Int) (hs : s ≤ st.cap) :
    dhas (ttlInsert st k s now).items k = true := by
  simp only [ttlInsert, if_neg (show ¬ s > st.cap by omega)]
  by_cases ht : st.ttl > 0 <;> simp [ht, dhas_dset_self]

/-- `_insert` with a positive ttl records expiry `now + ttl_ms` for its
key when the size is admissible. -/
theorem ttlInsert_expiry (st : TTLSt) (k s now : Int) (hs : s ≤ st.cap) (ht : 0 < st.ttl) :
    dget (ttlInsert st k s now).expiry k = some (now + st.ttl) := by
  simp only [ttlInsert, if_neg (show ¬ s > st.cap by omega), if_pos (show st.ttl > 0 from ht)]
  exact dget_dset_self _ k _

/-- `put` leaves its key present when the size is admissible. -/
theorem ttlPut_has (st : TTLSt) (k s : Int) (md : Option CacheMetadata) (hs : s ≤ st.cap) :
    dhas (ttlPut st k s md).items k = true := by
  simp only [ttlPut]
  apply ttlInsert_has
  split
  · rw [(ttlRemove_frame _ _).1, (ttlAdvance_fields st md).2.2.1]
    exact hs
  · rw [(ttlAdvance_fields st md).2.2.1]
    exact hs

/-- `put` with a positive ttl stamps its key with expiry
`advance(now) + ttl_ms` when the size is admissible. -/
theorem ttlPut_expiry (st : TTLSt) (k s : Int) (md : Option CacheMetadata)
    (hs : s ≤ st.cap) (ht : 0 < st.ttl) :
    dget (ttlPut st k s md).expiry k = some ((ttlAdvance st md).now + st.ttl) := by
  simp only [ttlPut]
  have hframe : ((if dhas (ttlAdvance st md).items k then ttlRemove (ttlAdvance st md) k
      else ttlAdvance st md)).cap = st.cap ∧
      ((if dhas (ttlAdvance st md).items k then ttlRemove (ttlAdvance st md) k
      else ttlAdvance st md)).ttl = st.ttl := by
    split
    · exact ⟨by rw [(ttlRemove_frame _ _).1, (ttlAdvance_fields st md).2.2.1],
        by rw [(ttlRemove_frame _ _).2.1, (ttlAdvance_fields st md).2.2.2]⟩
    · exact ⟨(ttlAdvance_fields st md).2.2.1, (ttlAdvance_fields st md).2.2.2⟩
  rw [← hframe.2]
  exact ttlInsert_expiry _ k s _ (by rw [hframe.1]; exact hs) (by rw [hframe.2]; exact ht)

/-- TTL half of the amended C7: a `put(k, s)` immediately followed by
`get(k, s)` hits, provided the size is admissible, the ttl positive, and
the clock the `get` advances to lies strictly before the expiry the `put`
stamped. -/
theorem ttlPut_then_get_hit (st : TTLSt) (k s : Int) (md1 md2 : Option CacheMetadata)
    (hs : s ≤ st.cap) (ht : 0 < st.ttl)
    (hfresh : (ttlAdvance (ttlPut st k s md1) md2).now < (ttlAdvance st md1).now + st.ttl) :
    ((ttlGet (ttlPut st k s md1) k s md2).2).hit = true := by
  have hhas2 : dhas (ttlAdvance (ttlPut st k s md1) md2).items k = true := by
    rw [(ttlAdvance_fields _ md2).1]
    exact ttlPut_has st k s md1 hs
  have hexpired : ttlIsExpired (ttlAdvance (ttlPut st k s md1) md2) k
      ((ttlAdvance (ttlPut st k s md1) md2)).now = false := by
    unfold ttlIsExpired
    rw [(ttlAdvance_fields _ md2).2.1, ttlPut_expiry st k s md1 hs ht]
    exact decide_eq_false (by omega)
  simp [ttlGet, hhas2, hexpired]

/-! ## Partitioned LRU put-then-get (C7) -/

/-- The spec-modelled LRU eviction loop keeps the capacity field. -/
theorem lruEvictLoop_cap : ∀ (fuel : Nat) (s : Int) (st : LRUSt),
    (lruEvictLoop fuel s st).cap = st.cap
  | 0, _, _ => rfl
  | fuel + 1, s, st => by
    cases hi : st.items with
    | nil => simp [lruEvictLoop, hi]
    | cons p rest =>
      obtain ⟨k0, s0⟩ := p
      by_cases hg : st.used + s > st.cap
      · simp [lruEvictLoop, hi, hg, lruEvictLoop_cap fuel s]
      · simp [lruEvictLoop, hi, hg]

/-- A spec-modelled LRU insert of an admissible size leaves the key
present. -/
theorem lruInsert_has (st : LRUSt) (k s : Int) (hs : s ≤ st.cap) :
    dhas (lruInsert st k s).items k = true := by
  simp only [lruInsert, if_neg (show ¬ s > st.cap by omega)]
  exact dhas_dset_self _ k s

/-- A spec-modelled LRU put of an admissible size leaves the key
present. -/
theorem lruPut_has (st : LRUSt) (k s : Int) (hs : s ≤ st.cap) :
    dhas (lruPut st k s).items k = true := by
  simp only [lruPut]
  cases hd : dget st.items k with
  | none => exact lruInsert_has _ k s hs
  | some sz => exact lruInsert_has _ k s hs

/-- A spec-modelled LRU get of a present key reports a hit. -/
theorem lruGet_hit_of_has (st : LRUSt) (k s : Int) (h : dhas st.items k = true) :
    ((lruGet st k s).2).hit = true := by
  simp [lruGet, h]

/-- `_select_partition` ignores the cache list. -/
theorem partSelect_set (st : PartSt) (cs : List LRUSt) (md : Option CacheMetadata) :
    partSelect { st with caches := cs } md = partSelect st md := by
  cases md with
  | none => rfl
  | some m => cases m.tenantId <;> rfl

/-- Partitioned half of the amended C7: a `put(k, s)` immediately
followed by `get(k, s)` with the same metadata hits, provided the size
fits the per-partition slice capacity. -/
theorem partPut_then_get_hit (st : PartSt) (k s : Int) (md : Option CacheMetadata)
    (hidx : partSelect st md < st.caches.length)
    (hs : s ≤ (st.caches.getD (partSelect st md) (lruInit 0)).cap) :
    ((partGet (partPut st k s md) k s md).2).hit = true := by
  simp only [partPut, partGet, partSelect_set]
  rw [List.getD, List.get?_set_eq_of_lt _ hidx]
  simp only [Option.getD_some]
  have hhit := lruGet_hit_of_has (lruPut (st.caches.getD (partSelect st md) (lruInit 0)) k s)
    k s (lruPut_has _ k s hs)
  cases hr : lruGet (lruPut (st.caches.getD (partSelect st md) (lruInit 0)) k s) k s with
  | mk c1 r =>
    rw [hr] at hhit
    simp only [hr]
    by_cases hb : r.hit = true <;> simp [hb] at hhit ⊢


/-! ## Key-list lemmas for duplicate-free dictionaries -/

/-- Unfolding of `dhas` at a cons cell. -/
theorem dhas_cons (p : Int × Int) (rest : List (Int × Int)) (k : Int) :
    dhas (p :: rest) k = ((p.1 == k) || dhas rest k) := by
  simp [dhas, List.any_cons]

/-- Erasure at a matching head skips it. -/
theorem derase_cons_match {p : Int × Int} {k : Int} (rest : List (Int × Int))
    (h : (p.1 == k) = true) : derase (p :: rest) k = derase rest k := by
  have hb : (p.1 != k) = false := by simp [bne, h]
  simp [derase, List.filter_cons, hb]

/-- Erasure at a non-matching head keeps it. -/
theorem derase_cons_skip {p : Int × Int} {k : Int} (rest : List (Int × Int))
    (h : (p.1 == k) = false) : derase (p :: rest) k = p :: derase rest k := by
  have hb : (p.1 != k) = true := by simp [bne, h]
  simp [derase, List.filter_cons, hb]

/-- Key membership via `dkeys`. -/
theorem mem_dkeys_iff_dhas (l : List (Int × Int)) (k : Int) :
    k ∈ dkeys l ↔ dhas l k = true := by
  unfold dkeys dhas
  rw [List.any_eq_true]
  constructor
  · intro h
    obtain ⟨p, hp, he⟩ := List.mem_map.mp h
    exact ⟨p, hp, by simp [he]⟩
  · rintro ⟨p, hp, he⟩
    exact List.mem_map.mpr ⟨p, hp, by simpa using he⟩

/-- Erasure drops the key. -/
theorem dhas_derase_self : ∀ (l : List (Int × Int)) (k : Int),
    dhas (derase l k) k = false
  | [], _ => rfl
  | p :: rest, k => by
    cases hb : (p.1 == k) with
    | true =>
      rw [derase_cons_match rest hb]
      exact dhas_derase_self rest k
    | false =>
      rw [derase_cons_skip rest hb, dhas_cons, hb, dhas_derase_self rest k]
      rfl

/-- Erasing an absent key is the identity. -/
theorem derase_eq_self_of_not_has : ∀ (l : List (Int × Int)) (k : Int),
    dhas l k = false → derase l k = l
  | [], _, _ => rfl
  | p :: rest, k, h => by
    have hb : (p.1 == k) = false := by
      cases hc : (p.1 == k) with
      | true => rw [dhas_cons, hc] at h; simp at h
      | false => rfl
    have h2 : dhas rest k = false := by
      rw [dhas_cons, hb] at h
      simpa using h
    rw [derase_cons_skip rest hb, derase_eq_self_of_not_has rest k h2]

/-- Erasing the head key of a duplicate-free list pops the head. -/
theorem derase_cons_head (k0 s0 : Int) (rest : List (Int × Int))
    (h : (dkeys ((k0, s0) :: rest)).Nodup) : derase ((k0, s0) :: rest) k0 = rest := by
  have hk : k0 ∉ dkeys rest := by
    rw [dkeys, List.map_cons] at h
    exact (List.nodup_cons.mp h).1
  have h2 : dhas rest k0 = false := by
    cases hc : dhas rest k0 with
    | true => exact absurd ((mem_dkeys_iff_dhas rest k0).mpr hc) hk
    | false => rfl
  rw [derase_cons_match rest (by simp), derase_eq_self_of_not_has rest k0 h2]

/-- The erased key list is a sublist of the original one. -/
theorem dkeys_derase_sublist (l : List (Int × Int)) (k : Int) :
    (dkeys (derase l k)).Sublist (dkeys l) := by
  unfold dkeys
  exact (List.filter_sublist l).map _

/-- `derase` keeps the key list duplicate-free. -/
theorem nodup_derase (l : List (Int × Int)) (k : Int) (h : (dkeys l).Nodup) :
    (dkeys (derase l k)).Nodup :=
  (dkeys_derase_sublist l k).nodup h

/-- Anything in the erased list was in the original. -/
theorem mem_dkeys_derase (l : List (Int × Int)) (k x : Int)
    (h : x ∈ dkeys (derase l k)) : x ∈ dkeys l :=
  (dkeys_derase_sublist l k).subset h

/-- In-place update keeps the key list. -/
theorem dkeys_map_update : ∀ (l : List (Int × Int)) (k v : Int),
    dkeys (l.map fun q => if q.1 == k then (q.1, v) else q) = dkeys l
  | [], _, _ => rfl
  | p :: rest, k, v => by
    have ih := dkeys_map_update rest k v
    cases hb : (p.1 == k) with
    | true =>
      have he : p.1 = k := by simpa using hb
      rw [List.map_cons, dkeys, List.map_cons, if_pos (by simpa using hb)]
      rw [dkeys, List.map_cons] ; rw [← dkeys, ← dkeys, ih]
    | false =>
      rw [List.map_cons, dkeys, List.map_cons, if_neg (by simpa using hb)]
      rw [dkeys, List.map_cons]
      rw [← dkeys, ← dkeys, ih]

/-- Assignment keeps the key list duplicate-free. -/
theorem nodup_dset (l : List (Int × Int)) (k v : Int) (h : (dkeys l).Nodup) :
    (dkeys (dset l k v)).Nodup := by
  cases hh : dhas l k with
  | true => rw [dset, if_pos hh, dkeys_map_update]; exact h
  | false =>
    rw [dset, if_neg (by simp [hh])]
    have hk : k ∉ dkeys l := fun hm => by
      rw [mem_dkeys_iff_dhas] at hm
      simp [hm] at hh
    unfold dkeys
    rw [List.map_append]
    exact List.Nodup.append h (by simp)
      (by simpa [dkeys, List.disjoint_singleton] using hk)

/-- Membership after assignment. -/
theorem mem_dkeys_dset (l : List (Int × Int)) (k v x : Int)
    (h : x ∈ dkeys (dset l k v)) : x ∈ dkeys l ∨ x = k := by
  cases hh : dhas l k with
  | true =>
    rw [dset, if_pos hh, dkeys_map_update] at h
    exact Or.inl h
  | false =>
    rw [dset, if_neg (by simp [hh])] at h
    unfold dkeys at h
    rw [List.map_append] at h
    rcases List.mem_append.mp h with h | h
    · exact Or.inl (by simpa [dkeys] using h)
    · right
      simpa using h

/-- Move-to-end keeps the key list duplicate-free. -/
theorem nodup_dmove (l : List (Int × Int)) (k : Int) (h : (dkeys l).Nodup) :
    (dkeys (dmove l k)).Nodup := by
  unfold dmove
  cases hd : dget l k with
  | none => exact h
  | some v =>
    have h1 := nodup_derase l k h
    have h2 : k ∉ dkeys (derase l k) := fun hm => by
      rw [mem_dkeys_iff_dhas, dhas_derase_self] at hm
      exact absurd hm (by simp)
    unfold dkeys
    rw [List.map_append]
    exact List.Nodup.append h1 (by simp)
      (by simpa [dkeys, List.disjoint_singleton] using h2)

/-- Membership after move-to-end. -/
theorem mem_dkeys_dmove (l : List (Int × Int)) (k x : Int)
    (h : x ∈ dkeys (dmove l k)) : x ∈ dkeys l := by
  unfold dmove at h
  cases hd : dget l k with
  | none => rwa [hd] at h
  | some v =>
    rw [hd] at h
    unfold dkeys at h
    rw [List.map_append] at h
    rcases List.mem_append.mp h with h | h
    · exact mem_dkeys_derase l k x (by simpa [dkeys] using h)
    · have hx : x = k := by simpa using h
      rw [hx, mem_dkeys_iff_dhas, dhas_eq_isSome_dget, hd]
      rfl

/-- Counter fields of `_advance`. -/
theorem ttlAdvance_fields2 (st : TTLSt) (md : Option CacheMetadata) :
    (ttlAdvance st md).used = st.used ∧ (ttlAdvance st md).hits = st.hits ∧
    (ttlAdvance st md).misses = st.misses := by
  cases md with
  | none => exact ⟨rfl, rfl, rfl⟩
  | some m =>
    obtain ⟨ts, pr, pin, ten⟩ := m
    cases ts with
    | none => exact ⟨rfl, rfl, rfl⟩
    | some t => by_cases h : t > 0 <;> simp [ttlAdvance, h]

/-- The two eviction loops preserve the simulation relation. -/
theorem ttl0_evictLoop_rel : ∀ (fuel : Nat) (s : Int) (t : TTLSt) (l : LRUSt),
    ttl0Rel t l → ttl0Rel (ttlEvictLoop fuel s t) (lruEvictLoop fuel s l)
  | 0, _, _, _, h => h
  | fuel + 1, s, t, l, h => by
    obtain ⟨h0, he, hc, hi, hu, hh, hm, hn⟩ := h
    cases hil : t.items with
    | nil =>
      have hll : l.items = [] := by rw [← hi, hil]
      simp only [ttlEvictLoop, lruEvictLoop, hil, hll]
      exact ⟨h0, he, hc, hi, hu, hh, hm, hn⟩
    | cons p rest =>
      obtain ⟨k0, s0⟩ := p
      have hll : l.items = (k0, s0) :: rest := by rw [← hi, hil]
      simp only [ttlEvictLoop, lruEvictLoop, hil, hll]
      by_cases hg : t.used + s > t.cap
      · have hgl : l.used + s > l.cap := by rw [← hu, ← hc]; exact hg
        rw [if_pos hg, if_pos hgl]
        have hn2 : (dkeys ((k0, s0) :: rest)).Nodup := by rwa [hil] at hn
        have hd : dget t.items k0 = some s0 := by
          rw [hil]
          exact dget_cons_eq rest (by simp)
        have hrel2 : ttl0Rel (ttlRemove t k0)
            { l with items := rest, used := l.used - s0 } := by
          unfold ttlRemove
          rw [hd]
          refine ⟨h0, ?_, hc, ?_, ?_, hh, hm, ?_⟩
          · show derase t.expiry k0 = []
            rw [he]
            rfl
          · show derase t.items k0 = rest
            rw [hil]
            exact derase_cons_head k0 s0 rest hn2
          · show t.used - s0 = l.used - s0
            rw [hu]
          · show (dkeys (derase t.items k0)).Nodup
            rw [hil, derase_cons_head k0 s0 rest hn2]
            rw [dkeys, List.map_cons, List.nodup_cons] at hn2
            exact hn2.2
        exact ttl0_evictLoop_rel fuel s _ _ hrel2
      · have hgl : ¬ l.used + s > l.cap := by rw [← hu, ← hc]; exact hg
        rw [if_neg hg, if_neg hgl]
        exact ⟨h0, he, hc, hi, hu, hh, hm, hn⟩

/-- `_insert` preserves the simulation relation. -/
theorem ttl0_insert_rel (t : TTLSt) (l : LRUSt) (k s now : Int) (h : ttl0Rel t l) :
    ttl0Rel (ttlInsert t k s now) (lruInsert l k s) := by
  obtain ⟨h0, he, hc, hi, hu, hh, hm, hn⟩ := h
  by_cases hs : s > t.cap
  · have hsl : s > l.cap := by rw [← hc]; exact hs
    simp only [ttlInsert, lruInsert, if_pos hs, if_pos hsl]
    exact ⟨h0, he, hc, hi, hu, hh, hm, hn⟩
  · have hsl : ¬ s > l.cap := by rw [← hc]; exact hs
    have httl : ¬ t.ttl > 0 := by omega
    simp only [ttlInsert, lruInsert, if_neg hs, if_neg hsl, if_neg httl]
    have hlen : t.items.length = l.items.length := by rw [hi]
    rw [hlen]
    have hloop := ttl0_evictLoop_rel l.items.length s t l ⟨h0, he, hc, hi, hu, hh, hm, hn⟩
    obtain ⟨g0, ge, gc, gi, gu, gh, gm, gn⟩ := hloop
    exact ⟨g0, ge, gc, by rw [gi], by rw [gu], gh, gm, nodup_dset _ k s gn⟩

/-- `get` preserves the simulation relation and returns the same
lookup. -/
theorem ttl0_get_rel (t : TTLSt) (l : LRUSt) (k s : Int) (md : Option CacheMetadata)
    (h : ttl0Rel t l) :
    ttl0Rel (ttlGet t k s md).1 (lruGet l k s).1 ∧ (ttlGet t k s md).2 = (lruGet l k s).2 := by
  obtain ⟨h0, he, hc, hi, hu, hh, hm, hn⟩ := h
  have ha := ttlAdvance_fields t md
  have ha2 := ttlAdvance_fields2 t md
  have g0 : (ttlAdvance t md).ttl = 0 := by rw [ha.2.2.2, h0]
  have ge : (ttlAdvance t md).expiry = [] := by rw [ha.2.1, he]
  have gc : (ttlAdvance t md).cap = l.cap := by rw [ha.2.2.1, hc]
  have gi : (ttlAdvance t md).items = l.items := by rw [ha.1, hi]
  have gu : (ttlAdvance t md).used = l.used := by rw [ha2.1, hu]
  have gh : (ttlAdvance t md).hits = l.hits := by rw [ha2.2.1, hh]
  have gm : (ttlAdvance t md).misses = l.misses := by rw [ha2.2.2, hm]
  have gn : (dkeys (ttlAdvance t md).items).Nodup := by rw [ha.1]; exact hn
  cases hhas : dhas (ttlAdvance t md).items k with
  | true =>
    have hlh : dhas l.items k = true := by rw [← gi]; exact hhas
    have hexp : ttlIsExpired (ttlAdvance t md) k (ttlAdvance t md).now = false := by
      unfold ttlIsExpired
      rw [ge]
      rfl
    simp only [ttlGet, lruGet]
    rw [if_pos hhas, if_neg (by rw [hexp]; simp), if_pos hlh]
    refine ⟨⟨g0, ge, gc, by rw [gi], gu, by rw [gh], by rw [gm], ?_⟩, rfl⟩
    · show (dkeys (dmove (ttlAdvance t md).items k)).Nodup
      exact nodup_dmove _ k gn
  | false =>
    have hlh : dhas l.items k = false := by rw [← gi]; exact hhas
    simp only [ttlGet, lruGet]
    rw [if_neg (by rw [hhas]; simp), if_neg (by rw [hlh]; simp)]
    refine ⟨?_, rfl⟩
    exact ttl0_insert_rel _ _ k s _
      ⟨g0, ge, gc, gi, gu, gh, by rw [gm], gn⟩

/-- `put` preserves the simulation relation. -/
theorem ttl0_put_rel (t : TTLSt) (l : LRUSt) (k s : Int) (md : Option CacheMetadata)
    (h : ttl0Rel t l) : ttl0Rel (ttlPut t k s md) (lruPut l k s) := by
  obtain ⟨h0, he, hc, hi, hu, hh, hm, hn⟩ := h
  have ha := ttlAdvance_fields t md
  have ha2 := ttlAdvance_fields2 t md
  have g0 : (ttlAdvance t md).ttl = 0 := by rw [ha.2.2.2, h0]
  have ge : (ttlAdvance t md).expiry = [] := by rw [ha.2.1, he]
  have gc : (ttlAdvance t md).cap = l.cap := by rw [ha.2.2.1, hc]
  have gi : (ttlAdvance t md).items = l.items := by rw [ha.1, hi]
  have gu : (ttlAdvance t md).used = l.used := by rw [ha2.1, hu]
  have gh : (ttlAdvance t md).hits = l.hits := by rw [ha2.2.1, hh]
  have gm : (ttlAdvance t md).misses = l.misses := by rw [ha2.2.2, hm]
  have gn : (dkeys (ttlAdvance t md).items).Nodup := by rw [ha.1]; exact hn
  simp only [ttlPut, lruPut]
  cases hd : dget l.items k with
  | none =>
    have hhas : dhas (ttlAdvance t md).items k = false := by
      rw [dhas_eq_isSome_dget, gi, hd]
      rfl
    rw [if_neg (by rw [hhas]; simp)]
    exact ttl0_insert_rel _ _ k s _ ⟨g0, ge, gc, gi, gu, gh, gm, gn⟩
  | some sz =>
    have hhas : dhas (ttlAdvance t md).items k = true := by
      rw [dhas_eq_isSome_dget, gi, hd]
      rfl
    rw [if_pos hhas]
    apply ttl0_insert_rel
    unfold ttlRemove
    rw [gi, hd]
    refine ⟨g0, ?_, gc, rfl, by rw [gu], gh, gm, ?_⟩
    · show derase (ttlAdvance t md).expiry k = []
      rw [ge]
      rfl
    · show (dkeys (derase l.items k)).Nodup
      exact nodup_derase _ k (by rwa [gi] at gn)

/-- Whole-run simulation between TTL with `ttl_ms = 0` and the
spec-modelled LRU. -/
theorem ttl0_run_rel : ∀ (ops : List CacheOp) (t : TTLSt) (l : LRUSt), ttl0Rel t l →
    ttl0Rel (ttlRun t ops).1 (lruRun l ops).1 ∧ (ttlRun t ops).2 = (lruRun l ops).2
  | [], t, l, h => ⟨h, rfl⟩
  | .opGet k s md :: ops, t, l, h => by
    obtain ⟨hstep, hresult⟩ := ttl0_get_rel t l k s md h
    obtain ⟨hrun, hres⟩ := ttl0_run_rel ops (ttlGet t k s md).1 (lruGet l k s).1 hstep
    simp only [ttlRun, lruRun]
    exact ⟨hrun, by rw [hresult, hres]⟩
  | .opPut k s md :: ops, t, l, h => by
    obtain ⟨hrun, hres⟩ := ttl0_run_rel ops (ttlPut t k s md) (lruPut l k s)
      (ttl0_put_rel t l k s md h)
    simp only [ttlRun, lruRun]
    exact ⟨hrun, by rw [hres]⟩

/-- C6 counterexample: a TTL cache with `ttl_ms = 0` is not
observationally equivalent to the spec-modelled FIFO policy.  With
capacity 200 and gets 1, 2, 1, 3, 1 (100 bytes each): the TTL cache
move-to-ends key 1 on its hit, so the admission of key 3 evicts key 2 and
the final get of key 1 hits; FIFO leaves key 1 oldest, evicts it for key
3, and the final get of key 1 misses. -/
theorem C6_ttl0_not_fifo :
    (ttlRun (ttlInit 200 0) [CacheOp.opGet 1 100 none, CacheOp.opGet 2 100 none,
      CacheOp.opGet 1 100 none, CacheOp.opGet 3 100 none, CacheOp.opGet 1 100 none]).2 ≠
    (fifoRun (fifoInit 200) [CacheOp.opGet 1 100 none, CacheOp.opGet 2 100 none,
      CacheOp.opGet 1 100 none, CacheOp.opGet 3 100 none, CacheOp.opGet 1 100 none]).2 := by
  decide

/-- C6 (amended): a TTL cache constructed with `ttl_ms = 0` never expires
entries and is observationally equivalent to the spec-modelled LRU policy
(not FIFO) on every operation sequence: hits move the key to the
most-recently-used end, and eviction under pressure removes the
least-recently-used entry; the collected lookup results and the final
items, byte usage and hit/miss counters coincide. -/
theorem C6_ttl0_equiv_lru (cap : Int) (ops : List CacheOp) :
    (ttlRun (ttlInit cap 0) ops).2 = (lruRun (lruInit cap) ops).2 ∧
    (ttlRun (ttlInit cap 0) ops).1.items = (lruRun (lruInit cap) ops).1.items ∧
    (ttlRun (ttlInit cap 0) ops).1.used = (lruRun (lruInit cap) ops).1.used ∧
    (ttlRun (ttlInit cap 0) ops).1.hits = (lruRun (lruInit cap) ops).1.hits ∧
    (ttlRun (ttlInit cap 0) ops).1.misses = (lruRun (lruInit cap) ops).1.misses := by
  have hinit : ttl0Rel (ttlInit cap 0) (lruInit cap) := by
    refine ⟨?_, rfl, rfl, rfl, rfl, rfl, rfl, by simp [ttlInit, dkeys]⟩
    show max 0 0 = (0 : Int)
    simp
  obtain ⟨hrel, hres⟩ := ttl0_run_rel ops (ttlInit cap 0) (lruInit cap) hinit
  exact ⟨hres, hrel.2.2.2.1, hrel.2.2.2.2.1, hrel.2.2.2.2.2.1, hrel.2.2.2.2.2.2.1⟩

/-! ## 2Q structure disjointness (C10) -/

/-- Membership in an appended singleton binding. -/
theorem mem_dkeys_append_single (l : List (Int × Int)) (k v x : Int) :
    x ∈ dkeys (l ++ [(k, v)]) ↔ x ∈ dkeys l ∨ x = k := by
  simp [dkeys]

/-- Appending a fresh binding keeps the key list duplicate-free. -/
theorem nodup_append_single (l : List (Int × Int)) (k v : Int)
    (h : (dkeys l).Nodup) (hk : k ∉ dkeys l) : (dkeys (l ++ [(k, v)])).Nodup := by
  unfold dkeys
  rw [List.map_append]
  exact List.Nodup.append h (by simp)
    (by simpa [dkeys, List.disjoint_singleton] using hk)

/-- Assignment of an absent key is an append. -/
theorem dset_eq_append_of_not_has (l : List (Int × Int)) (k v : Int)
    (h : dhas l k = false) : dset l k v = l ++ [(k, v)] := by
  rw [dset, if_neg (by simp [h])]

/-- The A1out trim loop only drops entries. -/
theorem twoqTrimLoop_sublist (c : Int) : ∀ (fuel : Nat) (total : Int)
    (g : List (Int × Int)), (twoqTrimLoop c fuel total g).Sublist g
  | 0, _, _ => List.Sublist.refl _
  | fuel + 1, total, [] => List.Sublist.refl _
  | fuel + 1, total, p :: rest => by
    obtain ⟨pk, ps⟩ := p
    simp only [twoqTrimLoop]
    by_cases hgt : total > c
    · rw [if_pos hgt]
      exact (twoqTrimLoop_sublist c fuel (total - ps) rest).trans
        (List.sublist_cons_self _ _)
    · rw [if_neg hgt]

/-- Trimming A1out preserves the invariant. -/
theorem twoqTrim_inv (st : TwoQSt) (h : twoqInv st) : twoqInv (twoqTrimA1out st) := by
  obtain ⟨n1, n2, n3, d12, d13, d23⟩ := h
  have hsub : ((twoqTrimLoop st.a1outCap st.a1out.length ((st.a1out.map (·.2)).sum)
      st.a1out)).Sublist st.a1out := twoqTrimLoop_sublist _ _ _ _
  have hkeys : (dkeys (twoqTrimLoop st.a1outCap st.a1out.length
      ((st.a1out.map (·.2)).sum) st.a1out)).Sublist (dkeys st.a1out) := by
    unfold dkeys
    exact hsub.map _
  exact ⟨n1, n2, hkeys.nodup n3,
    d12,
    fun x hx hmem => d13 hx (hkeys.subset hmem),
    fun x hx hmem => d23 hx (hkeys.subset hmem)⟩

/-- Popping the A1in head into A1out preserves the invariant. -/
theorem twoq_pop_a1in_inv (st : TwoQSt) (ek es : Int) (rest : List (Int × Int))
    (h : twoqInv st) (ha : st.a1in = (ek, es) :: rest) :
    twoqInv { st with a1in := rest, a1inBytes := st.a1inBytes - es,
                      a1out := dset st.a1out ek es } := by
  obtain ⟨n1, n2, n3, d12, d13, d23⟩ := h
  have hek_in : ek ∈ dkeys st.a1in := by
    rw [ha, dkeys, List.map_cons]
    exact List.mem_cons_self _ _
  have hek_am : ek ∉ dkeys st.am := d12 hek_in
  have hek_out : ek ∉ dkeys st.a1out := d13 hek_in
  have hn1 : ek ∉ dkeys rest ∧ (dkeys rest).Nodup := by
    rw [ha, dkeys, List.map_cons, List.nodup_cons] at n1
    exact ⟨by simpa [dkeys] using n1.1, by simpa [dkeys] using n1.2⟩
  have hrest_sub : ∀ x, x ∈ dkeys rest → x ∈ dkeys st.a1in := by
    intro x hx
    rw [ha, dkeys, List.map_cons]
    exact List.mem_cons_of_mem _ hx
  have hout_has : dhas st.a1out ek = false := by
    cases hc : dhas st.a1out ek with
    | true => exact absurd ((mem_dkeys_iff_dhas _ _).mpr hc) hek_out
    | false => rfl
  have hout_eq : dset st.a1out ek es = st.a1out ++ [(ek, es)] :=
    dset_eq_append_of_not_has _ _ _ hout_has
  refine ⟨hn1.2, n2, ?_, ?_, ?_, ?_⟩
  · show (dkeys (dset st.a1out ek es)).Nodup
    rw [hout_eq]
    exact nodup_append_single _ _ _ n3 hek_out
  · intro x hx
    exact d12 (hrest_sub x hx)
  · intro x hx hmem
    have hmem2 : x ∈ dkeys (dset st.a1out ek es) := hmem
    rw [hout_eq, mem_dkeys_append_single] at hmem2
    rcases hmem2 with hm | hm
    · exact d13 (hrest_sub x hx) hm
    · rw [hm] at hx
      exact hn1.1 hx
  · intro x hx hmem
    have hmem2 : x ∈ dkeys (dset st.a1out ek es) := hmem
    rw [hout_eq, mem_dkeys_append_single] at hmem2
    rcases hmem2 with hm | hm
    · exact d23 hx hm
    · rw [hm] at hx
      exact hek_am hx

/-- Popping the Am head into A1out preserves the invariant. -/
theorem twoq_pop_am_inv (st : TwoQSt) (ek es : Int) (rest : List (Int × Int))
    (h : twoqInv st) (ha : st.am = (ek, es) :: rest) :
    twoqInv { st with am := rest, amBytes := st.amBytes - es,
                      a1out := dset st.a1out ek es } := by
  obtain ⟨n1, n2, n3, d12, d13, d23⟩ := h
  have hek_am : ek ∈ dkeys st.am := by
    rw [ha, dkeys, List.map_cons]
    exact List.mem_cons_self _ _
  have hek_in : ek ∉ dkeys st.a1in := fun hx => d12 hx hek_am
  have hek_out : ek ∉ dkeys st.a1out := d23 hek_am
  have hn2 : ek ∉ dkeys rest ∧ (dkeys rest).Nodup := by
    rw [ha, dkeys, List.map_cons, List.nodup_cons] at n2
    exact ⟨by simpa [dkeys] using n2.1, by simpa [dkeys] using n2.2⟩
  have hrest_sub : ∀ x, x ∈ dkeys rest → x ∈ dkeys st.am := by
    intro x hx
    rw [ha, dkeys, List.map_cons]
    exact List.mem_cons_of_mem _ hx
  have hout_has : dhas st.a1out ek = false := by
    cases hc : dhas st.a1out ek with
    | true => exact absurd ((mem_dkeys_iff_dhas _ _).mpr hc) hek_out
    | false => rfl
  have hout_eq : dset st.a1out ek es = st.a1out ++ [(ek, es)] :=
    dset_eq_append_of_not_has _ _ _ hout_has
  refine ⟨n1, hn2.2, ?_, ?_, ?_, ?_⟩
  · show (dkeys (dset st.a1out ek es)).Nodup
    rw [hout_eq]
    exact nodup_append_single _ _ _ n3 hek_out
  · intro x hx hm
    exact d12 hx (hrest_sub x hm)
  · intro x hx hmem
    have hmem2 : x ∈ dkeys (dset st.a1out ek es) := hmem
    rw [hout_eq, mem_dkeys_append_single] at hmem2
    rcases hmem2 with hm | hm
    · exact d13 hx hm
    · rw [hm] at hx
      exact hek_in hx
  · intro x hx hmem
    have hmem2 : x ∈ dkeys (dset st.a1out ek es) := hmem
    rw [hout_eq, mem_dkeys_append_single] at hmem2
    rcases hmem2 with hm | hm
    · exact d23 (hrest_sub x hx) hm
    · rw [hm] at hx
      exact hn2.1 hx

/-- One eviction transfer preserves the invariant. -/
theorem twoqEvictStep_inv (st st1 : TwoQSt) (h : twoqInv st)
    (hstep : twoqEvictStep st = some st1) : twoqInv st1 := by
  unfold twoqEvictStep at hstep
  by_cases h1 : st.a1in ≠ [] ∧ st.a1inBytes > st.a1inCap
  · rw [if_pos h1] at hstep
    cases ha : st.a1in with
    | nil => exact absurd ha h1.1
    | cons p rest =>
      obtain ⟨ek, es⟩ := p
      rw [ha] at hstep
      have he := (Option.some.inj hstep).symm
      rw [he]
      exact twoqTrim_inv _ (twoq_pop_a1in_inv st ek es rest h ha)
  · rw [if_neg h1] at hstep
    cases ham : st.am with
    | cons p rest =>
      obtain ⟨ek, es⟩ := p
      rw [ham] at hstep
      have he := (Option.some.inj hstep).symm
      rw [he]
      exact twoqTrim_inv _ (twoq_pop_am_inv st ek es rest h ham)
    | nil =>
      rw [ham] at hstep
      cases ha : st.a1in with
      | nil =>
        rw [ha] at hstep
        exact Option.noConfusion hstep
      | cons p rest =>
        obtain ⟨ek, es⟩ := p
        rw [ha] at hstep
        have he := (Option.some.inj hstep).symm
        rw [he, ← ham]
        exact twoqTrim_inv _ (twoq_pop_a1in_inv st ek es rest h ha)

/-- The eviction loop preserves the invariant. -/
theorem twoqEvictLoop_inv : ∀ (fuel : Nat) (st : TwoQSt), twoqInv st →
    twoqInv (twoqEvictLoop fuel st)
  | 0, _, h => h
  | fuel + 1, st, h => by
    simp only [twoqEvictLoop]
    by_cases hg : st.a1inBytes + st.amBytes > st.cap
    · rw [if_pos hg]
      cases hstep : twoqEvictStep st with
      | none => exact h
      | some st1 => exact twoqEvictLoop_inv fuel st1 (twoqEvictStep_inv st st1 h hstep)
    · rw [if_neg hg]
      exact h

/-- `_evict_if_needed` preserves the invariant. -/
theorem twoqEvict_inv (st : TwoQSt) (h : twoqInv st) : twoqInv (twoqEvict st) :=
  twoqEvictLoop_inv _ _ h

/-- Admitting a key absent from all three structures into A1in preserves
the invariant. -/
theorem twoqInsertA1in_inv (st : TwoQSt) (k s : Int) (h : twoqInv st)
    (hk1 : dhas st.a1in k = false) (hk2 : dhas st.am k = false)
    (hk3 : dhas st.a1out k = false) : twoqInv (twoqInsertA1in st k s) := by
  unfold twoqInsertA1in
  by_cases hs : s > st.cap
  · rw [if_pos hs]
    exact h
  · rw [if_neg hs]
    apply twoqEvict_inv
    obtain ⟨n1, n2, n3, d12, d13, d23⟩ := h
    have hknot1 : k ∉ dkeys st.a1in := fun hm => by
      rw [mem_dkeys_iff_dhas] at hm
      simp [hm] at hk1
    have hknot2 : k ∉ dkeys st.am := fun hm => by
      rw [mem_dkeys_iff_dhas] at hm
      simp [hm] at hk2
    have hknot3 : k ∉ dkeys st.a1out := fun hm => by
      rw [mem_dkeys_iff_dhas] at hm
      simp [hm] at hk3
    have heq : dset st.a1in k s = st.a1in ++ [(k, s)] :=
      dset_eq_append_of_not_has _ _ _ hk1
    refine ⟨?_, n2, n3, ?_, ?_, d23⟩
    · show (dkeys (dset st.a1in k s)).Nodup
      rw [heq]
      exact nodup_append_single _ _ _ n1 hknot1
    · intro x hx
      have hx2 : x ∈ dkeys (dset st.a1in k s) := hx
      rw [heq, mem_dkeys_append_single] at hx2
      rcases hx2 with hm | hm
      · exact d12 hm
      · rw [hm]
        exact hknot2
    · intro x hx
      have hx2 : x ∈ dkeys (dset st.a1in k s) := hx
      rw [heq, mem_dkeys_append_single] at hx2
      rcases hx2 with hm | hm
      · exact d13 hm
      · rw [hm]
        exact hknot3

/-- Admitting a key absent from all three structures into Am preserves
the invariant. -/
theorem twoqInsertAm_inv (st : TwoQSt) (k s : Int) (h : twoqInv st)
    (hk1 : dhas st.a1in k = false) (hk2 : dhas st.am k = false)
    (hk3 : dhas st.a1out k = false) : twoqInv (twoqInsertAm st k s) := by
  unfold twoqInsertAm
  by_cases hs : s > st.cap
  · rw [if_pos hs]
    exact h
  · rw [if_neg hs]
    apply twoqEvict_inv
    obtain ⟨n1, n2, n3, d12, d13, d23⟩ := h
    have hknot1 : k ∉ dkeys st.a1in := fun hm => by
      rw [mem_dkeys_iff_dhas] at hm
      simp [hm] at hk1
    have hknot2 : k ∉ dkeys st.am := fun hm => by
      rw [mem_dkeys_iff_dhas] at hm
      simp [hm] at hk2
    have hknot3 : k ∉ dkeys st.a1out := fun hm => by
      rw [mem_dkeys_iff_dhas] at hm
      simp [hm] at hk3
    have heq : dset st.am k s = st.am ++ [(k, s)] :=
      dset_eq_append_of_not_has _ _ _ hk2
    refine ⟨n1, ?_, n3, ?_, d13, ?_⟩
    · show (dkeys (dset st.am k s)).Nodup
      rw [heq]
      exact nodup_append_single _ _ _ n2 hknot2
    · intro x hx hm
      have hm2 : x ∈ dkeys (dset st.am k s) := hm
      rw [heq, mem_dkeys_append_single] at hm2
      rcases hm2 with hm3 | hm3
      · exact d12 hx hm3
      · rw [hm3] at hx
        exact hknot1 hx
    · intro x hx
      have hx2 : x ∈ dkeys (dset st.am k s) := hx
      rw [heq, mem_dkeys_append_single] at hx2
      rcases hx2 with hm | hm
      · exact d23 hm
      · rw [hm]
        exact hknot3

/-- `TwoQCache.get` preserves the invariant. -/
theorem twoqGet_inv (st : TwoQSt) (k s : Int) (h : twoqInv st) :
    twoqInv (twoqGet st k s).1 := by
  obtain ⟨n1, n2, n3, d12, d13, d23⟩ := h
  unfold twoqGet
  by_cases ham : dhas st.am k = true
  · rw [if_pos ham]
    refine ⟨n1, nodup_dmove _ k n2, n3, ?_, d13, ?_⟩
    · intro x hx hm
      exact d12 hx (mem_dkeys_dmove _ k x hm)
    · intro x hx
      exact d23 (mem_dkeys_dmove _ k x hx)
  · have ham2 : dhas st.am k = false := by
      cases hc : dhas st.am k with
      | true => exact absurd hc ham
      | false => rfl
    rw [if_neg ham]
    cases hd : dget st.a1in k with
    | some sz =>
      apply twoqEvict_inv
      have hk_in : k ∈ dkeys st.a1in := by
        rw [mem_dkeys_iff_dhas, dhas_eq_isSome_dget, hd]
        rfl
      have hk_out : k ∉ dkeys st.a1out := d13 hk_in
      have hknot2 : k ∉ dkeys st.am := fun hm => by
        rw [mem_dkeys_iff_dhas] at hm
        simp [hm] at ham2
      have hamapp : dset st.am k sz = st.am ++ [(k, sz)] :=
        dset_eq_append_of_not_has _ _ _ ham2
      refine ⟨nodup_derase _ k n1, ?_, n3, ?_, ?_, ?_⟩
      · show (dkeys (dset st.am k sz)).Nodup
        rw [hamapp]
        exact nodup_append_single _ _ _ n2 hknot2
      · intro x hx hm
        have hm2 : x ∈ dkeys (dset st.am k sz) := hm
        rw [hamapp, mem_dkeys_append_single] at hm2
        rcases hm2 with hm3 | hm3
        · exact d12 (mem_dkeys_derase _ _ _ hx) hm3
        · rw [hm3] at hx
          rw [mem_dkeys_iff_dhas, dhas_derase_self] at hx
          exact absurd hx (by simp)
      · intro x hx
        exact d13 (mem_dkeys_derase _ _ _ hx)
      · intro x hx hm
        have hx2 : x ∈ dkeys (dset st.am k sz) := hx
        rw [hamapp, mem_dkeys_append_single] at hx2
        rcases hx2 with hm3 | hm3
        · exact d23 hm3 hm
        · rw [hm3] at hm
          exact hk_out hm
    | none =>
      by_cases hout : dhas st.a1out k = true
      · rw [if_pos hout]
        apply twoqInsertAm_inv
        · refine ⟨n1, n2, nodup_derase _ k n3, d12, ?_, ?_⟩
          · intro x hx hm
            exact d13 hx (mem_dkeys_derase _ _ _ hm)
          · intro x hx hm
            exact d23 hx (mem_dkeys_derase _ _ _ hm)
        · show dhas st.a1in k = false
          rw [dhas_eq_isSome_dget, hd]
          rfl
        · exact ham2
        · exact dhas_derase_self _ _
      · rw [if_neg hout]
        apply twoqInsertA1in_inv
        · exact ⟨n1, n2, n3, d12, d13, d23⟩
        · show dhas st.a1in k = false
          rw [dhas_eq_isSome_dget, hd]
          rfl
        · exact ham2
        · cases hc : dhas st.a1out k with
          | true => exact absurd hc hout
          | false => rfl

/-- `TwoQCache.put` preserves the invariant. -/
theorem twoqPut_inv (st : TwoQSt) (k s : Int) (h : twoqInv st) :
    twoqInv (twoqPut st k s) := by
  obtain ⟨n1, n2, n3, d12, d13, d23⟩ := h
  unfold twoqPut
  cases hdam : dget st.am k with
  | some sz =>
    have hk_am : k ∈ dkeys st.am := by
      rw [mem_dkeys_iff_dhas, dhas_eq_isSome_dget, hdam]
      rfl
    apply twoqInsertAm_inv
    · refine ⟨n1, nodup_derase _ k n2, n3, ?_, d13, ?_⟩
      · intro x hx hm
        exact d12 hx (mem_dkeys_derase _ _ _ hm)
      · intro x hx
        exact d23 (mem_dkeys_derase _ _ _ hx)
    · show dhas st.a1in k = false
      cases hc : dhas st.a1in k with
      | true => exact absurd hk_am (d12 ((mem_dkeys_iff_dhas _ _).mpr hc))
      | false => rfl
    · exact dhas_derase_self _ _
    · show dhas st.a1out k = false
      cases hc : dhas st.a1out k with
      | true => exact absurd ((mem_dkeys_iff_dhas _ _).mpr hc) (d23 hk_am)
      | false => rfl
  | none =>
    cases hdin : dget st.a1in k with
    | some sz =>
      have hk_in : k ∈ dkeys st.a1in := by
        rw [mem_dkeys_iff_dhas, dhas_eq_isSome_dget, hdin]
        rfl
      apply twoqInsertA1in_inv
      · refine ⟨nodup_derase _ k n1, n2, n3, ?_, ?_, d23⟩
        · intro x hx
          exact d12 (mem_dkeys_derase _ _ _ hx)
        · intro x hx
          exact d13 (mem_dkeys_derase _ _ _ hx)
      · exact dhas_derase_self _ _
      · show dhas st.am k = false
        rw [dhas_eq_isSome_dget, hdam]
        rfl
      · show dhas st.a1out k = false
        cases hc : dhas st.a1out k with
        | true => exact absurd ((mem_dkeys_iff_dhas _ _).mpr hc) (d13 hk_in)
        | false => rfl
    | none =>
      by_cases hout : dhas st.a1out k = true
      · rw [if_pos hout]
        apply twoqInsertAm_inv
        · refine ⟨n1, n2, nodup_derase _ k n3, d12, ?_, ?_⟩
          · intro x hx hm
            exact d13 hx (mem_dkeys_derase _ _ _ hm)
          · intro x hx hm
            exact d23 hx (mem_dkeys_derase _ _ _ hm)
        · show dhas st.a1in k = false
          rw [dhas_eq_isSome_dget, hdin]
          rfl
        · show dhas st.am k = false
          rw [dhas_eq_isSome_dget, hdam]
          rfl
        · exact dhas_derase_self _ _
      · rw [if_neg hout]
        apply twoqInsertA1in_inv
        · exact ⟨n1, n2, n3, d12, d13, d23⟩
        · show dhas st.a1in k = false
          rw [dhas_eq_isSome_dget, hdin]
          rfl
        · show dhas st.am k = false
          rw [dhas_eq_isSome_dget, hdam]
          rfl
        · cases hc : dhas st.a1out k with
          | true => exact absurd hc hout
          | false => rfl

/-- Whole runs preserve the invariant. -/
theorem twoqRun_inv : ∀ (ops : List CacheOp) (st : TwoQSt), twoqInv st →
    twoqInv (twoqRun st ops)
  | [], _, h => h
  | .opGet k s _ :: ops, st, h => twoqRun_inv ops _ (twoqGet_inv st k s h)
  | .opPut k s _ :: ops, st, h => twoqRun_inv ops _ (twoqPut_inv st k s h)

/-- C10: in the 2Q cache, after every sequence of get/put operations from
a fresh cache of any capacity and slice sizes, each key resides in at
most one of A1in, Am and A1out: the three key lists are duplicate-free
and pairwise disjoint — promotion on an A1in hit, re-admission on an
A1out hit, and every eviction transfer preserve the disjointness. -/
theorem C10_twoq_disjoint (cap a1inCap a1outCap : Int) (ops : List CacheOp) :
    twoqInv (twoqRun (twoqInit cap a1inCap a1outCap) ops) :=
  twoqRun_inv ops _ ⟨List.nodup_nil, List.nodup_nil, List.nodup_nil,
    by simp [twoqInit, dkeys], by simp [twoqInit, dkeys], by simp [twoqInit, dkeys]⟩

/-- Length of the inner split loop output. -/
theorem splitGo_length (B : Int) : ∀ (n : Nat) (left : Int), (splitGo B n left).length = n
  | 0, _ => by simp [splitGo]
  | 1, _ => by simp [splitGo]
  | n + 2, left => by simp [splitGo, splitGo_length B (n + 1)]

/-- The inner split loop covers the remaining tokens: its sum is at least
`left`. -/
theorem splitGo_sum (B : Int) : ∀ (n : Nat) (left : Int), 1 ≤ n → left ≤ (splitGo B n left).sum
  | 0, _, h => absurd h (by omega)
  | 1, left, _ => by
    simp only [splitGo, List.sum_cons, List.sum_nil]
    omega
  | n + 2, left, _ => by
    have ih := splitGo_sum B (n + 1) (max 0 (left - B)) (by omega)
    simp only [splitGo, List.sum_cons]
    omega

/-- C8: `_split_tokens` returns the empty list for `N ≤ 0`; for
`total_tokens ≤ 0` it returns `N` copies of `block_size`, whose sum is
`N·block_size`; and for `T > 0`, `N ≥ 1` the result has length `N` and
sum at least `T`. -/
theorem C8_split_tokens (T N B : Int) :
    (N ≤ 0 → splitTokens T N B = []) ∧
    (T ≤ 0 → 0 < N → splitTokens T N B = List.replicate N.toNat B ∧
      (splitTokens T N B).sum = N * B) ∧
    (0 < T → 0 < N → (splitTokens T N B).length = N.toNat ∧ T ≤ (splitTokens T N B).sum) := by
  refine ⟨fun h => by simp [splitTokens, h], fun hT hN => ?_, fun hT hN => ?_⟩
  · have h1 : ¬ N ≤ 0 := by omega
    refine ⟨by simp [splitTokens, hT, h1], ?_⟩
    simp only [splitTokens, if_neg h1, if_pos hT, List.sum_replicate, nsmul_eq_mul]
    rw [Int.toNat_of_nonneg (by omega)]
  · have h1 : ¬ N ≤ 0 := by omega
    have h2 : ¬ T ≤ 0 := by omega
    simp only [splitTokens, if_neg h1, if_neg h2]
    exact ⟨splitGo_length B N.toNat T, splitGo_sum B N.toNat T (by omega)⟩

/-- Witness for C8 at concrete inputs: `split(5, 2, 3)` covers the
positive case, `split(7, −1, 3)` the empty case, `split(−1, 2, 3)` the
non-positive-token case. -/
theorem C8_split_tokens_witness :
    ((splitTokens 5 2 3).length = (2 : Int).toNat ∧ 5 ≤ (splitTokens 5 2 3).sum) ∧
    splitTokens 7 (-1) 3 = [] ∧
    splitTokens (-1) 2 3 = List.replicate (2 : Int).toNat 3 :=
  ⟨(C8_split_tokens 5 2 3).2.2 (by decide) (by decide),
   (C8_split_tokens 7 (-1) 3).1 (by decide),
   ((C8_split_tokens (-1) 2 3).2.1 (by decide) (by decide)).1⟩

/-- C1: the claim that `used_bytes ≤ capacity_bytes` after every
operation fails on the code.  ARC's miss path runs `_replace` with the
stop condition `T1+T2 ≥ capacity`, ignoring the incoming size, so
`get(2, 95)` on a 100-byte cache holding 10 bytes leaves 105 resident
bytes; LFU's `put` of an existing key replaces the size with no eviction
pass, so `put(1, 200)` over a resident 50-byte entry leaves 200 resident
bytes in a 100-byte cache. -/
theorem C1_capacity_overshoot :
    (arcUsedBytes ((arcGet ((arcGet (arcInit 100 50) 1 10).1) 2 95).1) = 105 ∧
      ((arcGet ((arcGet (arcInit 100 50) 1 10).1) 2 95).1).cap = 100) ∧
    ((lfuPut 10 (lfuPut 10 (lfuInit 100) 1 50) 1 200).used = 200 ∧
      (lfuPut 10 (lfuPut 10 (lfuInit 100) 1 50) 1 200).cap = 100) := by decide

/-- C3: the claim that an over-sized `get` evicts nothing fails on ARC:
with capacity 100 and key 1 resident at 100 bytes, `get(2, 150)` runs
`_replace` before the size check in `_insert_t1`, so key 1 is evicted to
the B1 ghost while key 2 is refused — the resident set is emptied. -/
theorem C3_arc_oversized_miss_evicts :
    dhas ((arcGet (arcInit 100 50) 1 100).1).t1 1 = true ∧
    ((arcGet ((arcGet (arcInit 100 50) 1 100).1) 2 150).1).t1 = [] ∧
    ((arcGet ((arcGet (arcInit 100 50) 1 100).1) 2 150).1).t2 = [] ∧
    dhas ((arcGet ((arcGet (arcInit 100 50) 1 100).1) 2 150).1).b1 1 = true := by decide

/-- C5: the inclusive invariant fails on the code once L2 evicts under
pressure.  With L1 = L2 = 100 bytes: `get(1,100)` admits key 1 into L2;
`get(1,100)` promotes it into L1; `get(2,100)` misses and admits key 2
into L2, evicting key 1 from L2 with no back-invalidation of L1 — key 1
is then resident in L1 but not in L2. -/
theorem C5_inclusive_invariant_broken :
    lruContains ((hierGet ((hierGet ((hierGet (hierInit 100 100) 1 100).1) 1 100).1)
      2 100).1).l1 1 = true ∧
    lruContains ((hierGet ((hierGet ((hierGet (hierInit 100 100) 1 100).1) 1 100).1)
      2 100).1).l2 1 = false := by decide

/-- C9: the claim `items = 0 ⟺ used_bytes = 0` (and `items ≤ used_bytes`)
fails on the code.  `put(1, 200)` over a resident 50-byte entry in a
100-byte cache removes the bucket entry and its bytes, then `_insert`
refuses the over-sized entry — but the key stays in `_priorities`, so
`stats` reports `items = 1` with `used_bytes = 0`. -/
theorem C9_priority_stale_item :
    prioItems (prioPut (prioPut (prioInit 100) 1 50 none) 1 200 none) = 1 ∧
    (prioPut (prioPut (prioInit 100) 1 50 none) 1 200 none).used = 0 := by decide

/-- C4: the eviction loop of `LFUCache._insert` does not always
terminate.  From the reachable state `c4Start`, the loop of `get(3, 50)`
reaches `c4Stuck` after one eviction; there the loop guard
`used + size > capacity ∧ items ≠ ∅` still holds and `_evict` is the
identity, so the loop never exits at any fuel: the source `while` loop
diverges. -/
theorem C4_lfu_eviction_diverges :
    (∀ fuel, lfuEvictLoop fuel 50 c4Stuck = c4Stuck) ∧
    (c4Stuck.used + 50 > c4Stuck.cap ∧ c4Stuck.items ≠ []) ∧
    (∀ fuel, lfuEvictLoop (fuel + 1) 50 { c4Start with misses := c4Start.misses + 1 } =
      lfuEvictLoop fuel 50 c4Stuck) := by
  have hfix : lfuEvict c4Stuck = c4Stuck := by decide
  have hguard : c4Stuck.used + 50 > c4Stuck.cap ∧ c4Stuck.items ≠ [] := by
    constructor
    · decide
    · decide
  have hloop : ∀ fuel, lfuEvictLoop fuel 50 c4Stuck = c4Stuck := by
    intro fuel
    induction fuel with
    | zero => rfl
    | succ n ih => rw [lfuEvictLoop, if_pos hguard, hfix, ih]
  refine ⟨hloop, hguard, fun fuel => ?_⟩
  have hguard0 : { c4Start with misses := c4Start.misses + 1 : LFUSt }.used + 50 >
      { c4Start with misses := c4Start.misses + 1 : LFUSt }.cap ∧
      { c4Start with misses := c4Start.misses + 1 : LFUSt }.items ≠ [] := by
    constructor
    · decide
    · decide
  rw [lfuEvictLoop, if_pos hguard0]
  rfl

/-- Lookup of an absent key is `none`. -/
theorem dget_eq_none_of_not_has (l : List (Int × Int)) (k : Int)
    (h : dhas l k = false) : dget l k = none := by
  rw [dhas_eq_isSome_dget] at h
  cases hd : dget l k with
  | none => rfl
  | some v => rw [hd] at h; simp at h

/-- A key appended as a singleton binding is present. -/
theorem dhas_append_single_self (l : List (Int × Int)) (k v : Int) :
    dhas (l ++ [(k, v)]) k = true := by
  simp [dhas, List.any_append, List.any_cons]

/-- Erasing a present key of a duplicate-free list removes exactly its
size from the value sum. -/
theorem derase_sum : ∀ (l : List (Int × Int)) (k v : Int), (dkeys l).Nodup →
    dget l k = some v → ((derase l k).map (·.2)).sum = (l.map (·.2)).sum - v
  | [], k, v, _, hd => by simp [dget] at hd
  | p :: rest, k, v, hn, hd => by
    cases hb : (p.1 == k) with
    | true =>
      rw [dget_cons_eq rest hb] at hd
      have hv : p.2 = v := Option.some.inj hd
      have hrest : dhas rest k = false := by
        rw [dkeys, List.map_cons, List.nodup_cons] at hn
        have hk : p.1 ∉ dkeys rest := by simpa [dkeys] using hn.1
        have he : p.1 = k := by simpa using hb
        cases hc : dhas rest k with
        | true =>
          exact absurd ((mem_dkeys_iff_dhas rest k).mpr hc) (he ▸ hk)
        | false => rfl
      rw [derase_cons_match rest hb, derase_eq_self_of_not_has rest k hrest,
        List.map_cons, List.sum_cons, hv]
      omega
    | false =>
      rw [dget_cons_ne rest hb] at hd
      have hn2 : (dkeys rest).Nodup := by
        rw [dkeys, List.map_cons, List.nodup_cons] at hn
        exact hn.2
      rw [derase_cons_skip rest hb, List.map_cons, List.sum_cons, List.map_cons,
        List.sum_cons, derase_sum rest k v hn2 hd]
      omega

/-- Lookup at a matching head (value-generic). -/
theorem aget_cons_eq {α : Type} {p : Int × α} (l : List (Int × α)) {k : Int}
    (h : (p.1 == k) = true) : aget (p :: l) k = some p.2 := by
  simp [aget, List.find?_cons, h]

/-- Lookup skips a non-matching head (value-generic). -/
theorem aget_cons_ne {α : Type} {p : Int × α} (l : List (Int × α)) {k : Int}
    (h : (p.1 == k) = false) : aget (p :: l) k = aget l k := by
  simp [aget, List.find?_cons, h]

/-- Lookup in an in-place update finds the new value (value-generic). -/
theorem aget_map_update {α : Type} : ∀ (l : List (Int × α)) (k : Int) (v : α),
    ahas l k = true → aget (l.map fun q => if q.1 == k then (q.1, v) else q) k = some v
  | [], k, v, h => by simp [ahas] at h
  | p :: rest, k, v, h => by
    cases hb : (p.1 == k) with
    | true =>
      have he : p.1 = k := by simpa using hb
      have hmap : ((p :: rest).map fun q => if q.1 == k then (q.1, v) else q) =
          (p.1, v) :: (rest.map fun q => if q.1 == k then (q.1, v) else q) := by
        simp [List.map_cons, he]
      rw [hmap, aget_cons_eq _ (show ((p.1, v).1 == k) = true from hb)]
    | false =>
      have h2 : ahas rest k = true := by
        simpa [ahas, List.any_cons, hb] using h
      have hne : ¬ p.1 = k := by simpa using hb
      have hmap : ((p :: rest).map fun q => if q.1 == k then (q.1, v) else q) =
          p :: (rest.map fun q => if q.1 == k then (q.1, v) else q) := by
        simp [List.map_cons, hne]
      rw [hmap, aget_cons_ne _ hb]
      exact aget_map_update rest k v h2

/-- Lookup in an appended fresh binding finds it (value-generic). -/
theorem aget_append_fresh {α : Type} : ∀ (l : List (Int × α)) (k : Int) (v : α),
    ahas l k = false → aget (l ++ [(k, v)]) k = some v
  | [], k, v, _ => by simp [aget, List.find?_cons]
  | p :: rest, k, v, h => by
    have hb : (p.1 == k) = false := by
      cases hc : (p.1 == k) with
      | true => simp [ahas, List.any_cons, hc] at h
      | false => rfl
    have h2 : ahas rest k = false := by
      simpa [ahas, List.any_cons, hb] using h
    rw [List.cons_append, aget_cons_ne _ hb]
    exact aget_append_fresh rest k v h2

/-- Lookup after assignment finds the assigned value (value-generic). -/
theorem aget_aset_self {α : Type} (l : List (Int × α)) (k : Int) (v : α) :
    aget (aset l k v) k = some v := by
  cases hh : ahas l k with
  | true =>
    rw [aset, if_pos hh]
    exact aget_map_update l k v hh
  | false =>
    rw [aset, if_neg (by simp [hh])]
    exact aget_append_fresh l k v hh

/-- The FIFO eviction loop keeps the capacity field. -/
theorem fifoEvictLoop_cap : ∀ (fuel : Nat) (s : Int) (st : FIFOSt),
    (fifoEvictLoop fuel s st).cap = st.cap
  | 0, _, _ => rfl
  | fuel + 1, s, st => by
    cases hi : st.items with
    | nil => simp [fifoEvictLoop, hi]
    | cons p rest =>
      obtain ⟨k0, s0⟩ := p
      by_cases hg : st.used + s > st.cap
      · simp [fifoEvictLoop, hi, hg, fifoEvictLoop_cap fuel s]
      · simp [fifoEvictLoop, hi, hg]

/-- The MRU eviction loop keeps the capacity field. -/
theorem mruEvictLoop_cap : ∀ (fuel : Nat) (s : Int) (st : MRUSt),
    (mruEvictLoop fuel s st).cap = st.cap
  | 0, _, _ => rfl
  | fuel + 1, s, st => by
    cases hi : st.items.getLast? with
    | none => simp [mruEvictLoop, hi]
    | some p =>
      obtain ⟨k0, s0⟩ := p
      by_cases hg : st.used + s > st.cap
      · simp [mruEvictLoop, hi, hg, mruEvictLoop_cap fuel s]
      · simp [mruEvictLoop, hi, hg]

/-- One LFU eviction keeps the capacity field. -/
theorem lfuEvict_cap (st : LFUSt) : (lfuEvict st).cap = st.cap := by
  unfold lfuEvict
  cases hb : bget st.buckets st.minFreq with
  | nil => rfl
  | cons k rest => by_cases hr : rest = [] <;> simp [hr]

/-- The LFU eviction loop keeps the capacity field. -/
theorem lfuEvictLoop_cap : ∀ (fuel : Nat) (s : Int) (st : LFUSt),
    (lfuEvictLoop fuel s st).cap = st.cap
  | 0, _, _ => rfl
  | fuel + 1, s, st => by
    by_cases hg : st.used + s > st.cap ∧ st.items ≠ []
    · simp only [lfuEvictLoop, if_pos hg, lfuEvictLoop_cap fuel s, lfuEvict_cap]
    · simp only [lfuEvictLoop, if_neg hg]

/-- One LRU-K eviction keeps the capacity field. -/
theorem lrukEvict_cap (st : LRUKSt) : (lrukEvict st).cap = st.cap := by
  unfold lrukEvict
  split
  · rfl
  · split
    · rfl
    · rfl

/-- The LRU-K eviction loop keeps the capacity field. -/
theorem lrukEvictLoop_cap : ∀ (fuel : Nat) (s : Int) (st : LRUKSt),
    (lrukEvictLoop fuel s st).cap = st.cap
  | 0, _, _ => rfl
  | fuel + 1, s, st => by
    by_cases hg : st.used + s > st.cap ∧ st.items ≠ []
    · simp only [lrukEvictLoop, if_pos hg, lrukEvictLoop_cap fuel s, lrukEvict_cap]
    · simp only [lrukEvictLoop, if_neg hg]

/-- The CLOCK hand sweep keeps the capacity field. -/
theorem clockEvictOneLoop_cap : ∀ (fuel : Nat) (st : ClockSt),
    (clockEvictOneLoop fuel st).cap = st.cap
  | 0, _ => rfl
  | fuel + 1, st => by
    cases hq : st.queue with
    | nil => simp [clockEvictOneLoop, hq]
    | cons cand rest =>
      by_cases h1 : dhas st.items cand = true
      · by_cases h2 : (dget st.refBits cand).getD 0 = 0
        · simp [clockEvictOneLoop, hq, h1, h2]
        · simp [clockEvictOneLoop, hq, h1, h2, clockEvictOneLoop_cap fuel]
      · have h1f : dhas st.items cand = false := by
          cases hc : dhas st.items cand with
          | true => exact absurd hc h1
          | false => rfl
        simp [clockEvictOneLoop, hq, h1f, clockEvictOneLoop_cap fuel]

/-- The CLOCK eviction loop keeps the capacity field. -/
theorem clockEvictLoop_cap : ∀ (fuel : Nat) (s : Int) (st : ClockSt),
    (clockEvictLoop fuel s st).cap = st.cap
  | 0, _, _ => rfl
  | fuel + 1, s, st => by
    by_cases hg : st.used + s > st.cap ∧ st.items ≠ []
    · simp only [clockEvictLoop, if_pos hg, clockEvictLoop_cap fuel s]
      exact clockEvictOneLoop_cap _ st
    · simp only [clockEvictLoop, if_neg hg]


/-- Ghost trimming keeps the capacity field. -/
theorem cpTrimLoop_cap : ∀ (fuel : Nat) (st : CPSt), (cpTrimLoop fuel st).cap = st.cap
  | 0, _ => rfl
  | fuel + 1, st => by
    unfold cpTrimLoop
    split
    · rfl
    · split
      · exact cpTrimLoop_cap fuel _
      · rfl

/-- The CLOCK-Pro hand sweep keeps the capacity field. -/
theorem cpEvictOneLoop_cap : ∀ (fuel : Nat) (st : CPSt),
    (cpEvictOneLoop fuel st).cap = st.cap
  | 0, _ => rfl
  | fuel + 1, st => by
    unfold cpEvictOneLoop
    split
    · rfl
    · split
      · exact cpEvictOneLoop_cap fuel _
      · split
        · split
          · exact cpEvictOneLoop_cap fuel _
          · exact cpEvictOneLoop_cap fuel _
        · split
          · exact cpEvictOneLoop_cap fuel _
          · exact (cpTrimLoop_cap _ _).trans rfl

/-- The CLOCK-Pro eviction loop keeps the capacity field. -/
theorem cpEvictLoop_cap : ∀ (fuel : Nat) (s : Int) (st : CPSt),
    (cpEvictLoop fuel s st).cap = st.cap
  | 0, _, _ => rfl
  | fuel + 1, s, st => by
    by_cases hg : st.used + s > st.cap ∧ st.entries ≠ []
    · simp only [cpEvictLoop, if_pos hg, cpEvictLoop_cap fuel s]
      exact (cpEvictOneLoop_cap _ st).trans rfl
    · simp only [cpEvictLoop, if_neg hg]

/-- A key absent from a cons list is absent from its tail. -/
theorem dhas_cons_false_tail {p : Int × Int} {l : List (Int × Int)} {k : Int}
    (h : dhas (p :: l) k = false) : dhas l k = false := by
  rw [dhas_cons] at h
  cases hc : dhas l k with
  | true => rw [hc] at h; simp at h
  | false => rfl

/-- The ARC replacement loop keeps the capacity field. -/
theorem arcReplaceLoop_cap : ∀ (kArg : Int) (fuel : Nat) (st : ARCSt),
    (arcReplaceLoop kArg fuel st).cap = st.cap
  | _, 0, _ => rfl
  | kArg, fuel + 1, st => by
    unfold arcReplaceLoop
    split
    · split
      · split
        · rfl
        · exact arcReplaceLoop_cap kArg fuel _
      · split
        · split
          · rfl
          · exact arcReplaceLoop_cap kArg fuel _
        · rfl
    · rfl

/-- The ARC replacement loop never adds a key to T1. -/
theorem arcReplaceLoop_t1_absent (kOther : Int) : ∀ (kArg : Int) (fuel : Nat) (st : ARCSt),
    dhas st.t1 kOther = false → dhas (arcReplaceLoop kArg fuel st).t1 kOther = false
  | _, 0, _, h => h
  | kArg, fuel + 1, st, h => by
    unfold arcReplaceLoop
    split
    · split
      · split
        · exact h
        · next ek es rest heq =>
            apply arcReplaceLoop_t1_absent kOther kArg fuel
            show dhas rest kOther = false
            rw [heq] at h
            exact dhas_cons_false_tail h
      · split
        · split
          · exact h
          · exact arcReplaceLoop_t1_absent kOther kArg fuel _ h
        · exact h
    · exact h

/-- The ARC replacement loop never adds a key to T2. -/
theorem arcReplaceLoop_t2_absent (kOther : Int) : ∀ (kArg : Int) (fuel : Nat) (st : ARCSt),
    dhas st.t2 kOther = false → dhas (arcReplaceLoop kArg fuel st).t2 kOther = false
  | _, 0, _, h => h
  | kArg, fuel + 1, st, h => by
    unfold arcReplaceLoop
    split
    · split
      · split
        · exact h
        · exact arcReplaceLoop_t2_absent kOther kArg fuel _ h
      · split
        · split
          · exact h
          · next ek es rest heq =>
              apply arcReplaceLoop_t2_absent kOther kArg fuel
              show dhas rest kOther = false
              rw [heq] at h
              exact dhas_cons_false_tail h
        · exact h
    · exact h


/-- A FIFO insert of an admissible size leaves the key present. -/
theorem fifoInsert_has (st : FIFOSt) (k s : Int) (hs : s ≤ st.cap) :
    dhas (fifoInsert st k s).items k = true := by
  simp only [fifoInsert, if_neg (show ¬ s > st.cap by omega)]
  exact dhas_dset_self _ k s

/-- FIFO put-then-get: a freshly deposited admissible entry is found. -/
theorem fifoPut_then_get_hit (st : FIFOSt) (k s : Int) (hs : s ≤ st.cap) :
    ((fifoGet (fifoPut st k s) k s).2).hit = true := by
  have hh : dhas (fifoPut st k s).items k = true := by
    simp only [fifoPut]
    cases hd : dget st.items k with
    | none => exact fifoInsert_has st k s hs
    | some sz => exact fifoInsert_has _ k s hs
  simp [fifoGet, hh]

/-- An MRU insert of an admissible size leaves the key present. -/
theorem mruInsert_has (st : MRUSt) (k s : Int) (hs : s ≤ st.cap) :
    dhas (mruInsert st k s).items k = true := by
  simp only [mruInsert, if_neg (show ¬ s > st.cap by omega)]
  exact dhas_dset_self _ k s

/-- MRU put-then-get: a freshly deposited admissible entry is found. -/
theorem mruPut_then_get_hit (st : MRUSt) (k s : Int) (hs : s ≤ st.cap) :
    ((mruGet (mruPut st k s) k s).2).hit = true := by
  have hh : dhas (mruPut st k s).items k = true := by
    simp only [mruPut]
    cases hd : dget st.items k with
    | none => exact mruInsert_has st k s hs
    | some sz => exact mruInsert_has _ k s hs
  simp [mruGet, hh]

/-- `_bump_freq` does not touch the resident items. -/
theorem lfuBumpFreq_items (st : LFUSt) (k : Int) : (lfuBumpFreq st k).items = st.items := by
  simp only [lfuBumpFreq]
  split <;> rfl

/-- An LFU insert of an admissible size leaves the key present, at every
eviction fuel. -/
theorem lfuInsert_has (fuel : Nat) (st : LFUSt) (k s : Int) (hs : s ≤ st.cap) :
    dhas (lfuInsert fuel st k s).items k = true := by
  simp only [lfuInsert, if_neg (show ¬ s > st.cap by omega)]
  exact dhas_dset_self _ k s

/-- LFU put-then-get at any eviction fuels: a freshly deposited
admissible entry is found. -/
theorem lfuPut_then_get_hit (f1 f2 : Nat) (st : LFUSt) (k s : Int) (hs : s ≤ st.cap) :
    ((lfuGet f2 (lfuPut f1 st k s) k s).2).hit = true := by
  have hh : dhas (lfuPut f1 st k s).items k = true := by
    simp only [lfuPut]
    by_cases hd : dhas st.items k = true
    · rw [if_pos hd, lfuBumpFreq_items]
      exact dhas_dset_self _ k s
    · rw [if_neg hd]
      exact lfuInsert_has f1 st k s hs
  simp [lfuGet, hh]

/-- A CLOCK insert of an admissible size leaves the key present, at every
eviction fuel. -/
theorem clockInsert_has (fuel : Nat) (st : ClockSt) (k s : Int) (hs : s ≤ st.cap) :
    dhas (clockInsert fuel st k s).items k = true := by
  simp only [clockInsert, if_neg (show ¬ s > st.cap by omega)]
  exact dhas_dset_self _ k s

/-- CLOCK put-then-get at any eviction fuels: a freshly deposited
admissible entry is found. -/
theorem clockPut_then_get_hit (f1 f2 : Nat) (st : ClockSt) (k s : Int) (hs : s ≤ st.cap) :
    ((clockGet f2 (clockPut f1 st k s) k s).2).hit = true := by
  have hh : dhas (clockPut f1 st k s).items k = true := by
    simp only [clockPut]
    by_cases hd : dhas st.items k = true
    · rw [if_pos hd]
      exact clockInsert_has f1 _ k s hs
    · rw [if_neg hd]
      exact clockInsert_has f1 st k s hs
  simp [clockGet, hh]

/-- A CLOCK-Pro insert of an admissible size installs a fresh cold entry,
at every eviction fuel. -/
theorem cpInsert_aget (fuel : Nat) (st : CPSt) (k s : Int) (hs : s ≤ st.cap) :
    aget (cpInsert fuel st k s).entries k = some ⟨s, 1, false⟩ := by
  simp only [cpInsert, if_neg (show ¬ s > st.cap by omega)]
  exact aget_aset_self _ k _

/-- CLOCK-Pro put-then-get at any eviction fuels: a freshly deposited
admissible entry is found. -/
theorem cpPut_then_get_hit (f1 f2 : Nat) (st : CPSt) (k s : Int) (hs : s ≤ st.cap) :
    ((cpGet f2 (cpPut f1 st k s) k s).2).hit = true := by
  have hh : aget (cpPut f1 st k s).entries k = some ⟨s, 1, false⟩ := by
    simp only [cpPut]
    cases hd : aget st.entries k with
    | none => exact cpInsert_aget f1 st k s hs
    | some e => exact cpInsert_aget f1 _ k s hs
  simp [cpGet, hh]

/-- An LRU-K insert of an admissible size leaves the key present. -/
theorem lrukInsert_has (st : LRUKSt) (k s : Int) (hs : s ≤ st.cap) :
    dhas (lrukInsert st k s).items k = true := by
  simp only [lrukInsert, if_neg (show ¬ s > st.cap by omega)]
  exact dhas_dset_self _ k s

/-- LRU-K put-then-get: a freshly deposited admissible entry is found. -/
theorem lrukPut_then_get_hit (st : LRUKSt) (k s : Int) (hs : s ≤ st.cap) :
    ((lrukGet (lrukPut st k s) k s).2).hit = true := by
  have hh : dhas (lrukPut st k s).items k = true := by
    simp only [lrukPut]
    by_cases hd : dhas (lrukRecord { st with clock := st.clock + 1 } k).items k = true
    · rw [if_pos hd]
      exact lrukInsert_has _ k s hs
    · rw [if_neg hd]
      exact lrukInsert_has _ k s hs
  have hh2 : dhas (lrukRecord { lrukPut st k s with
      clock := (lrukPut st k s).clock + 1 } k).items k = true := hh
  simp [lrukGet, hh2]

/-- `_insert_t2` does not touch T1. -/
theorem arcInsertT2_t1 (st : ARCSt) (k s : Int) : (arcInsertT2 st k s).t1 = st.t1 := by
  unfold arcInsertT2
  split <;> rfl

/-- An admissible `_insert_t1` leaves the key in T1. -/
theorem arcInsertT1_has (st : ARCSt) (k s : Int) (hs : s ≤ st.cap) :
    dhas (arcInsertT1 st k s).t1 k = true := by
  simp only [arcInsertT1, if_neg (show ¬ s > st.cap by omega)]
  exact dhas_dset_self _ k s

/-- An admissible `_insert_t2` leaves the key in T2. -/
theorem arcInsertT2_has (st : ARCSt) (k s : Int) (hs : s ≤ st.cap) :
    dhas (arcInsertT2 st k s).t2 k = true := by
  simp only [arcInsertT2, if_neg (show ¬ s > st.cap by omega)]
  exact dhas_dset_self _ k s

/-- `ARCCache.get` hits a key resident in T1. -/
theorem arc_hit_of_t1 (st : ARCSt) (k s : Int) (h : dhas st.t1 k = true) :
    ((arcGet st k s).2).hit = true := by
  rw [dhas_eq_isSome_dget] at h
  cases hd : dget st.t1 k with
  | none => rw [hd] at h; simp at h
  | some sz => simp [arcGet, hd]

/-- `ARCCache.get` hits a key resident in T2 and absent from T1. -/
theorem arc_hit_of_t2 (st : ARCSt) (k s : Int) (h1 : dhas st.t1 k = false)
    (h2 : dhas st.t2 k = true) : ((arcGet st k s).2).hit = true := by
  have hd : dget st.t1 k = none := dget_eq_none_of_not_has _ _ h1
  simp [arcGet, hd, h2]

/-- ARC put-then-get: a freshly deposited admissible entry is found, in
every state. -/
theorem arcPut_then_get_hit (st : ARCSt) (k s : Int) (hs : s ≤ st.cap) :
    ((arcGet (arcPut st k s) k s).2).hit = true := by
  unfold arcPut
  cases h1 : dget st.t1 k with
  | some sz =>
    apply arc_hit_of_t2
    · rw [arcInsertT2_t1]
      show dhas (derase st.t1 k) k = false
      exact dhas_derase_self _ _
    · exact arcInsertT2_has _ k s hs
  | none =>
    have h1f : dhas st.t1 k = false := by rw [dhas_eq_isSome_dget, h1]; rfl
    cases h2 : dget st.t2 k with
    | some sz =>
      apply arc_hit_of_t2
      · rw [arcInsertT2_t1]
        exact h1f
      · exact arcInsertT2_has _ k s hs
    | none =>
      by_cases hb1 : dhas st.b1 k = true
      · rw [if_pos hb1]
        have hcap : (arcReplace { st with b1 := derase st.b1 k } k).cap = st.cap :=
          arcReplaceLoop_cap k _ _
        apply arc_hit_of_t2
        · rw [arcInsertT2_t1]
          exact arcReplaceLoop_t1_absent k k _ _ h1f
        · exact arcInsertT2_has _ k s (by rw [hcap]; exact hs)
      · rw [if_neg hb1]
        by_cases hb2 : dhas st.b2 k = true
        · rw [if_pos hb2]
          have hcap : (arcReplace { st with b2 := derase st.b2 k } k).cap = st.cap :=
            arcReplaceLoop_cap k _ _
          apply arc_hit_of_t2
          · rw [arcInsertT2_t1]
            exact arcReplaceLoop_t1_absent k k _ _ h1f
          · exact arcInsertT2_has _ k s (by rw [hcap]; exact hs)
        · rw [if_neg hb2]
          have hcap : (arcReplace st k).cap = st.cap := arcReplaceLoop_cap k _ _
          apply arc_hit_of_t1
          exact arcInsertT1_has _ k s (by rw [hcap]; exact hs)

/-- An admissible `_insert` records the key's priority. -/
theorem prioInsert_priority (st : PrioSt) (k s : Int) (md : Option CacheMetadata)
    (hs : s ≤ st.cap) :
    dget (prioInsert st k s md).priorities k =
      some (match md with | some m => m.priority | none => 0) := by
  simp only [prioInsert, if_neg (show ¬ s > st.cap by omega)]
  exact dget_dset_self _ k _

/-- Priority-LRU put-then-get: a freshly deposited admissible entry is
found (the get's metadata is irrelevant to the hit decision). -/
theorem prioPut_then_get_hit (st : PrioSt) (k s : Int) (md md2 : Option CacheMetadata)
    (hs : s ≤ st.cap) :
    ((prioGet (prioPut st k s md) k s md2).2).hit = true := by
  have hh : dget (prioPut st k s md).priorities k =
      some (match md with | some m => m.priority | none => 0) := by
    simp only [prioPut]
    split
    · split
      · exact prioInsert_priority _ k s md hs
      · exact prioInsert_priority st k s md hs
    · exact prioInsert_priority st k s md hs
  simp [prioGet, hh]

/-- Hierarchical put-then-get: a put writes L2 only, so a size within the
L2 capacity is found again (as an L2 hit at worst). -/
theorem hierPut_then_get_hit (st : HierSt) (k s : Int) (hs : s ≤ st.l2.cap) :
    ((hierGet (hierPut st k s) k s).2).hit = true := by
  have h2 : lruContains (hierPut st k s).l2 k = true := by
    show dhas (lruPut st.l2 k s).items k = true
    exact lruPut_has st.l2 k s hs
  by_cases h1 : lruContains (hierPut st k s).l1 k = true
  · simp [hierGet, h1]
  · simp [hierGet, h1, h2]

/-- Popping the A1in head into A1out keeps byte consistency. -/
theorem twoq_pop_a1in_cons (st : TwoQSt) (ek es : Int) (rest : List (Int × Int))
    (hc : twoqConsistent st) (ha : st.a1in = (ek, es) :: rest) :
    twoqConsistent (twoqTrimA1out { st with a1in := rest, a1inBytes := st.a1inBytes - es,
                                            a1out := dset st.a1out ek es }) := by
  obtain ⟨c1, c2⟩ := hc
  constructor
  · show st.a1inBytes - es = (rest.map (·.2)).sum
    rw [ha, List.map_cons, List.sum_cons] at c1
    omega
  · exact c2

/-- Popping the Am head into A1out keeps byte consistency. -/
theorem twoq_pop_am_cons (st : TwoQSt) (ek es : Int) (rest : List (Int × Int))
    (hc : twoqConsistent st) (ha : st.am = (ek, es) :: rest) :
    twoqConsistent (twoqTrimA1out { st with am := rest, amBytes := st.amBytes - es,
                                            a1out := dset st.a1out ek es }) := by
  obtain ⟨c1, c2⟩ := hc
  constructor
  · exact c1
  · show st.amBytes - es = (rest.map (·.2)).sum
    rw [ha, List.map_cons, List.sum_cons] at c2
    omega

/-- One eviction transfer cannot pop a just-appended A1in entry whose
size fits the A1in slice, as long as the slice plus that size fits the
total capacity: the key stays at the A1in tail, absent from Am. -/
theorem twoqEvictStep_keep_a1in (st st1 : TwoQSt) (k s : Int)
    (hc : twoqConsistent st) (hp : ∃ pre, st.a1in = pre ++ [(k, s)])
    (hm : dhas st.am k = false) (h0 : 0 ≤ s) (h1 : s ≤ st.a1inCap)
    (h2 : st.a1inCap + s ≤ st.cap) (hg : st.a1inBytes + st.amBytes > st.cap)
    (hstep : twoqEvictStep st = some st1) :
    twoqConsistent st1 ∧ (∃ pre, st1.a1in = pre ++ [(k, s)]) ∧
    dhas st1.am k = false ∧ st1.a1inCap = st.a1inCap ∧ st1.cap = st.cap := by
  unfold twoqEvictStep at hstep
  obtain ⟨pre, hpre⟩ := hp
  by_cases hb1 : st.a1in ≠ [] ∧ st.a1inBytes > st.a1inCap
  · rw [if_pos hb1] at hstep
    cases hpc : pre with
    | nil =>
      exfalso
      rw [hpc, List.nil_append] at hpre
      have hsum := hc.1
      rw [hpre, List.map_cons, List.map_nil, List.sum_cons, List.sum_nil] at hsum
      have hgt := hb1.2
      omega
    | cons p pre2 =>
      obtain ⟨pk, ps⟩ := p
      rw [hpc, List.cons_append] at hpre
      rw [hpre] at hstep
      have he := (Option.some.inj hstep).symm
      rw [he]
      exact ⟨twoq_pop_a1in_cons st pk ps (pre2 ++ [(k, s)]) hc hpre,
        ⟨pre2, rfl⟩, hm, rfl, rfl⟩
  · rw [if_neg hb1] at hstep
    cases ham : st.am with
    | cons q rest =>
      obtain ⟨ek, es⟩ := q
      rw [ham] at hstep
      have he := (Option.some.inj hstep).symm
      rw [he]
      refine ⟨twoq_pop_am_cons st ek es rest hc ham, ⟨pre, hpre⟩, ?_, rfl, rfl⟩
      show dhas rest k = false
      rw [ham] at hm
      exact dhas_cons_false_tail hm
    | nil =>
      rw [ham] at hstep
      cases hpc : pre with
      | nil =>
        exfalso
        rw [hpc, List.nil_append] at hpre
        have hsum := hc.1
        rw [hpre, List.map_cons, List.map_nil, List.sum_cons, List.sum_nil] at hsum
        have hsum2 := hc.2
        rw [ham, List.map_nil, List.sum_nil] at hsum2
        omega
      | cons p pre2 =>
        obtain ⟨pk, ps⟩ := p
        rw [hpc, List.cons_append] at hpre
        rw [hpre] at hstep
        have he := (Option.some.inj hstep).symm
        rw [he]
        refine ⟨⟨?_, ?_⟩, ⟨pre2, rfl⟩, ?_, rfl, rfl⟩
        · show st.a1inBytes - ps = ((pre2 ++ [(k, s)]).map (·.2)).sum
          have hsum := hc.1
          rw [hpre, List.map_cons, List.sum_cons] at hsum
          omega
        · show st.amBytes = (([] : List (Int × Int)).map (·.2)).sum
          have hsum2 := hc.2
          rw [ham, List.map_nil, List.sum_nil] at hsum2
          rw [List.map_nil, List.sum_nil]
          exact hsum2
        · show dhas ([] : List (Int × Int)) k = false
          rfl

/-- One eviction transfer cannot pop a just-appended Am entry whose size
fits the A1in slice with the slice plus that size within capacity: the
key stays at the Am tail. -/
theorem twoqEvictStep_keep_am (st st1 : TwoQSt) (k s : Int)
    (hc : twoqConsistent st) (hp : ∃ pre, st.am = pre ++ [(k, s)])
    (h0 : 0 ≤ s) (h1 : s ≤ st.a1inCap) (h2 : st.a1inCap + s ≤ st.cap)
    (hg : st.a1inBytes + st.amBytes > st.cap)
    (hstep : twoqEvictStep st = some st1) :
    twoqConsistent st1 ∧ (∃ pre, st1.am = pre ++ [(k, s)]) ∧
    st1.a1inCap = st.a1inCap ∧ st1.cap = st.cap := by
  unfold twoqEvictStep at hstep
  obtain ⟨pre, hpre⟩ := hp
  by_cases hb1 : st.a1in ≠ [] ∧ st.a1inBytes > st.a1inCap
  · rw [if_pos hb1] at hstep
    cases ha : st.a1in with
    | nil => exact absurd ha hb1.1
    | cons p rest =>
      obtain ⟨ek, es⟩ := p
      rw [ha] at hstep
      have he := (Option.some.inj hstep).symm
      rw [he]
      exact ⟨twoq_pop_a1in_cons st ek es rest hc ha, ⟨pre, hpre⟩, rfl, rfl⟩
  · rw [if_neg hb1] at hstep
    cases hpc : pre with
    | nil =>
      exfalso
      rw [hpc, List.nil_append] at hpre
      have hsum2 := hc.2
      rw [hpre, List.map_cons, List.map_nil, List.sum_cons, List.sum_nil] at hsum2
      rcases not_and_or.mp hb1 with hn | hn
      · have ha0 : st.a1in = [] := not_not.mp hn
        have hsum1 := hc.1
        rw [ha0, List.map_nil, List.sum_nil] at hsum1
        omega
      · have hle : ¬ st.a1inBytes > st.a1inCap := hn
        omega
    | cons p pre2 =>
      obtain ⟨pk, ps⟩ := p
      rw [hpc, List.cons_append] at hpre
      rw [hpre] at hstep
      have he := (Option.some.inj hstep).symm
      rw [he]
      exact ⟨twoq_pop_am_cons st pk ps (pre2 ++ [(k, s)]) hc hpre,
        ⟨pre2, rfl⟩, rfl, rfl⟩

/-- The eviction loop keeps a just-appended A1in entry that fits the
slice, at every fuel. -/
theorem twoq_loop_keep_a1in (k s : Int) : ∀ (fuel : Nat) (st : TwoQSt),
    twoqConsistent st → (∃ pre, st.a1in = pre ++ [(k, s)]) →
    dhas st.am k = false → 0 ≤ s → s ≤ st.a1inCap → st.a1inCap + s ≤ st.cap →
    (∃ pre, (twoqEvictLoop fuel st).a1in = pre ++ [(k, s)]) ∧
    dhas (twoqEvictLoop fuel st).am k = false
  | 0, _, _, hp, hm, _, _, _ => ⟨hp, hm⟩
  | fuel + 1, st, hc, hp, hm, h0, h1, h2 => by
    simp only [twoqEvictLoop]
    by_cases hg : st.a1inBytes + st.amBytes > st.cap
    · rw [if_pos hg]
      cases hstep : twoqEvictStep st with
      | none => exact ⟨hp, hm⟩
      | some st1 =>
        obtain ⟨hc1, hp1, hm1, hcap1, hcap2⟩ :=
          twoqEvictStep_keep_a1in st st1 k s hc hp hm h0 h1 h2 hg hstep
        exact twoq_loop_keep_a1in k s fuel st1 hc1 hp1 hm1 h0
          (by rw [hcap1]; exact h1) (by rw [hcap1, hcap2]; exact h2)
    · rw [if_neg hg]
      exact ⟨hp, hm⟩

/-- The eviction loop keeps a just-appended Am entry that fits the slice,
at every fuel. -/
theorem twoq_loop_keep_am (k s : Int) : ∀ (fuel : Nat) (st : TwoQSt),
    twoqConsistent st → (∃ pre, st.am = pre ++ [(k, s)]) →
    0 ≤ s → s ≤ st.a1inCap → st.a1inCap + s ≤ st.cap →
    ∃ pre, (twoqEvictLoop fuel st).am = pre ++ [(k, s)]
  | 0, _, _, hp, _, _, _ => hp
  | fuel + 1, st, hc, hp, h0, h1, h2 => by
    simp only [twoqEvictLoop]
    by_cases hg : st.a1inBytes + st.amBytes > st.cap
    · rw [if_pos hg]
      cases hstep : twoqEvictStep st with
      | none => exact hp
      | some st1 =>
        obtain ⟨hc1, hp1, hcap1, hcap2⟩ :=
          twoqEvictStep_keep_am st st1 k s hc hp h0 h1 h2 hg hstep
        exact twoq_loop_keep_am k s fuel st1 hc1 hp1 h0
          (by rw [hcap1]; exact h1) (by rw [hcap1, hcap2]; exact h2)
    · rw [if_neg hg]
      exact hp

/-- `_insert_a1in` of a fresh key that fits the A1in slice leaves the key
at the A1in tail, absent from Am. -/
theorem twoqInsertA1in_keep (st : TwoQSt) (k s : Int)
    (hc : twoqConsistent st) (hk : dhas st.a1in k = false)
    (hm : dhas st.am k = false) (h0 : 0 ≤ s) (h1 : s ≤ st.a1inCap)
    (h2 : st.a1inCap + s ≤ st.cap) :
    (∃ pre, (twoqInsertA1in st k s).a1in = pre ++ [(k, s)]) ∧
    dhas (twoqInsertA1in st k s).am k = false := by
  unfold twoqInsertA1in
  rw [if_neg (show ¬ s > st.cap by omega)]
  have happ : dset st.a1in k s = st.a1in ++ [(k, s)] :=
    dset_eq_append_of_not_has _ _ _ hk
  refine twoq_loop_keep_a1in k s _ _ ⟨?_, hc.2⟩ ⟨st.a1in, happ⟩ hm h0 h1 h2
  show st.a1inBytes + s = ((dset st.a1in k s).map (·.2)).sum
  have hsum := hc.1
  rw [happ, List.map_append, List.sum_append, List.map_cons, List.map_nil,
    List.sum_cons, List.sum_nil]
  omega

/-- `_insert_am` of a key absent from Am that fits the A1in slice leaves
the key at the Am tail. -/
theorem twoqInsertAm_keep (st : TwoQSt) (k s : Int)
    (hc : twoqConsistent st) (hm : dhas st.am k = false) (h0 : 0 ≤ s)
    (h1 : s ≤ st.a1inCap) (h2 : st.a1inCap + s ≤ st.cap) :
    ∃ pre, (twoqInsertAm st k s).am = pre ++ [(k, s)] := by
  unfold twoqInsertAm
  rw [if_neg (show ¬ s > st.cap by omega)]
  have happ : dset st.am k s = st.am ++ [(k, s)] :=
    dset_eq_append_of_not_has _ _ _ hm
  refine twoq_loop_keep_am k s _ _ ⟨hc.1, ?_⟩ ⟨st.am, happ⟩ h0 h1 h2
  show st.amBytes + s = ((dset st.am k s).map (·.2)).sum
  have hsum := hc.2
  rw [happ, List.map_append, List.sum_append, List.map_cons, List.map_nil,
    List.sum_cons, List.sum_nil]
  omega

/-- 2Q put-then-get on a well-formed state: the entry is found again when
its size fits the A1in slice and the slice plus the size fits the total
capacity. -/
theorem twoqPut_then_get_hit (st : TwoQSt) (k s : Int) (hwf : twoqWF st)
    (h0 : 0 ≤ s) (h1 : s ≤ st.a1inCap) (h2 : st.a1inCap + s ≤ st.cap) :
    ((twoqGet (twoqPut st k s) k s).2).hit = true := by
  obtain ⟨hc, hn1, hn2⟩ := hwf
  have hres : ((∃ pre, (twoqPut st k s).a1in = pre ++ [(k, s)]) ∧
      dhas (twoqPut st k s).am k = false) ∨
      (∃ pre, (twoqPut st k s).am = pre ++ [(k, s)]) := by
    unfold twoqPut
    cases hd1 : dget st.am k with
    | some sz =>
      right
      refine twoqInsertAm_keep _ k s ⟨hc.1, ?_⟩ (dhas_derase_self _ _) h0 h1 h2
      show st.amBytes - sz = ((derase st.am k).map (·.2)).sum
      rw [derase_sum st.am k sz hn2 hd1]
      have hsum := hc.2
      omega
    | none =>
      have hm : dhas st.am k = false := by rw [dhas_eq_isSome_dget, hd1]; rfl
      cases hd2 : dget st.a1in k with
      | some sz =>
        left
        refine twoqInsertA1in_keep _ k s ⟨?_, hc.2⟩ (dhas_derase_self _ _) hm h0 h1 h2
        show st.a1inBytes - sz = ((derase st.a1in k).map (·.2)).sum
        rw [derase_sum st.a1in k sz hn1 hd2]
        have hsum := hc.1
        omega
      | none =>
        have hk : dhas st.a1in k = false := by rw [dhas_eq_isSome_dget, hd2]; rfl
        by_cases hb : dhas st.a1out k = true
        · rw [if_pos hb]
          right
          exact twoqInsertAm_keep _ k s hc hm h0 h1 h2
        · rw [if_neg hb]
          left
          exact twoqInsertA1in_keep st k s hc hk hm h0 h1 h2
  rcases hres with ⟨⟨pre, hpre⟩, hm⟩ | ⟨pre, hpre⟩
  · have hhas : dhas (twoqPut st k s).a1in k = true := by
      rw [hpre]
      exact dhas_append_single_self _ _ _
    rw [dhas_eq_isSome_dget] at hhas
    cases hv : dget (twoqPut st k s).a1in k with
    | none => rw [hv] at hhas; simp at hhas
    | some v => simp [twoqGet, hm, hv]
  · have hhas : dhas (twoqPut st k s).am k = true := by
      rw [hpre]
      exact dhas_append_single_self _ _ _
    simp [twoqGet, hhas]

/-- A move-to-end keeps the value sum. -/
theorem dmove_sum (l : List (Int × Int)) (k : Int) (h : (dkeys l).Nodup) :
    ((dmove l k).map (·.2)).sum = (l.map (·.2)).sum := by
  unfold dmove
  cases hd : dget l k with
  | none => rfl
  | some v =>
    rw [List.map_append, List.sum_append, derase_sum l k v h hd,
      List.map_cons, List.map_nil, List.sum_cons, List.sum_nil]
    omega

/-- One eviction transfer keeps byte consistency. -/
theorem twoqEvictStep_cons (st st1 : TwoQSt) (hc : twoqConsistent st)
    (hstep : twoqEvictStep st = some st1) : twoqConsistent st1 := by
  unfold twoqEvictStep at hstep
  by_cases hb1 : st.a1in ≠ [] ∧ st.a1inBytes > st.a1inCap
  · rw [if_pos hb1] at hstep
    cases ha : st.a1in with
    | nil => exact absurd ha hb1.1
    | cons p rest =>
      obtain ⟨ek, es⟩ := p
      rw [ha] at hstep
      have he := (Option.some.inj hstep).symm
      rw [he]
      exact twoq_pop_a1in_cons st ek es rest hc ha
  · rw [if_neg hb1] at hstep
    cases ham : st.am with
    | cons p rest =>
      obtain ⟨ek, es⟩ := p
      rw [ham] at hstep
      have he := (Option.some.inj hstep).symm
      rw [he]
      exact twoq_pop_am_cons st ek es rest hc ham
    | nil =>
      rw [ham] at hstep
      cases ha : st.a1in with
      | nil =>
        rw [ha] at hstep
        exact Option.noConfusion hstep
      | cons p rest =>
        obtain ⟨ek, es⟩ := p
        rw [ha] at hstep
        have he := (Option.some.inj hstep).symm
        rw [he]
        constructor
        · show st.a1inBytes - es = (rest.map (·.2)).sum
          have hsum := hc.1
          rw [ha, List.map_cons, List.sum_cons] at hsum
          omega
        · show st.amBytes = (([] : List (Int × Int)).map (·.2)).sum
          have hsum2 := hc.2
          rw [ham] at hsum2
          exact hsum2

/-- The eviction loop keeps byte consistency. -/
theorem twoqEvictLoop_cons : ∀ (fuel : Nat) (st : TwoQSt), twoqConsistent st →
    twoqConsistent (twoqEvictLoop fuel st)
  | 0, _, hc => hc
  | fuel + 1, st, hc => by
    simp only [twoqEvictLoop]
    by_cases hg : st.a1inBytes + st.amBytes > st.cap
    · rw [if_pos hg]
      cases hstep : twoqEvictStep st with
      | none => exact hc
      | some st1 => exact twoqEvictLoop_cons fuel st1 (twoqEvictStep_cons st st1 hc hstep)
    · rw [if_neg hg]
      exact hc

/-- `_evict_if_needed` keeps byte consistency. -/
theorem twoqEvict_cons (st : TwoQSt) (hc : twoqConsistent st) :
    twoqConsistent (twoqEvict st) :=
  twoqEvictLoop_cons _ _ hc

/-- `_insert_a1in` of an absent key keeps byte consistency. -/
theorem twoqInsertA1in_cons (st : TwoQSt) (k s : Int) (hc : twoqConsistent st)
    (hk : dhas st.a1in k = false) : twoqConsistent (twoqInsertA1in st k s) := by
  unfold twoqInsertA1in
  by_cases hs : s > st.cap
  · rw [if_pos hs]
    exact hc
  · rw [if_neg hs]
    apply twoqEvict_cons
    have happ : dset st.a1in k s = st.a1in ++ [(k, s)] :=
      dset_eq_append_of_not_has _ _ _ hk
    refine ⟨?_, hc.2⟩
    show st.a1inBytes + s = ((dset st.a1in k s).map (·.2)).sum
    have hsum := hc.1
    rw [happ, List.map_append, List.sum_append, List.map_cons, List.map_nil,
      List.sum_cons, List.sum_nil]
    omega

/-- `_insert_am` of a key absent from Am keeps byte consistency. -/
theorem twoqInsertAm_cons (st : TwoQSt) (k s : Int) (hc : twoqConsistent st)
    (hm : dhas st.am k = false) : twoqConsistent (twoqInsertAm st k s) := by
  unfold twoqInsertAm
  by_cases hs : s > st.cap
  · rw [if_pos hs]
    exact hc
  · rw [if_neg hs]
    apply twoqEvict_cons
    have happ : dset st.am k s = st.am ++ [(k, s)] :=
      dset_eq_append_of_not_has _ _ _ hm
    refine ⟨hc.1, ?_⟩
    show st.amBytes + s = ((dset st.am k s).map (·.2)).sum
    have hsum := hc.2
    rw [happ, List.map_append, List.sum_append, List.map_cons, List.map_nil,
      List.sum_cons, List.sum_nil]
    omega

/-- `TwoQCache.get` keeps byte consistency on disjoint states. -/
theorem twoqGet_cons (st : TwoQSt) (k s : Int) (h : twoqInv st)
    (hc : twoqConsistent st) : twoqConsistent (twoqGet st k s).1 := by
  obtain ⟨n1, n2, n3, d12, d13, d23⟩ := h
  unfold twoqGet
  by_cases ham : dhas st.am k = true
  · rw [if_pos ham]
    refine ⟨hc.1, ?_⟩
    show st.amBytes = ((dmove st.am k).map (·.2)).sum
    rw [dmove_sum st.am k n2]
    exact hc.2
  · have ham2 : dhas st.am k = false := by
      cases hcc : dhas st.am k with
      | true => exact absurd hcc ham
      | false => rfl
    rw [if_neg ham]
    cases hd : dget st.a1in k with
    | some sz =>
      apply twoqEvict_cons
      have hamapp : dset st.am k sz = st.am ++ [(k, sz)] :=
        dset_eq_append_of_not_has _ _ _ ham2
      constructor
      · show st.a1inBytes - sz = ((derase st.a1in k).map (·.2)).sum
        rw [derase_sum st.a1in k sz n1 hd]
        have hsum := hc.1
        omega
      · show st.amBytes + sz = ((dset st.am k sz).map (·.2)).sum
        have hsum := hc.2
        rw [hamapp, List.map_append, List.sum_append, List.map_cons, List.map_nil,
          List.sum_cons, List.sum_nil]
        omega
    | none =>
      by_cases hout : dhas st.a1out k = true
      · rw [if_pos hout]
        exact twoqInsertAm_cons _ k s ⟨hc.1, hc.2⟩ ham2
      · rw [if_neg hout]
        have hk : dhas st.a1in k = false := by
          rw [dhas_eq_isSome_dget, hd]
          rfl
        exact twoqInsertA1in_cons _ k s ⟨hc.1, hc.2⟩ hk

/-- `TwoQCache.put` keeps byte consistency on disjoint states. -/
theorem twoqPut_cons (st : TwoQSt) (k s : Int) (h : twoqInv st)
    (hc : twoqConsistent st) : twoqConsistent (twoqPut st k s) := by
  obtain ⟨n1, n2, n3, d12, d13, d23⟩ := h
  unfold twoqPut
  cases hdam : dget st.am k with
  | some sz =>
    have hcd : st.amBytes - sz = ((derase st.am k).map (·.2)).sum := by
      rw [derase_sum st.am k sz n2 hdam]
      have hsum := hc.2
      omega
    exact twoqInsertAm_cons _ k s ⟨hc.1, hcd⟩ (dhas_derase_self _ _)
  | none =>
    cases hdin : dget st.a1in k with
    | some sz =>
      have hcd : st.a1inBytes - sz = ((derase st.a1in k).map (·.2)).sum := by
        rw [derase_sum st.a1in k sz n1 hdin]
        have hsum := hc.1
        omega
      exact twoqInsertA1in_cons _ k s ⟨hcd, hc.2⟩ (dhas_derase_self _ _)
    | none =>
      have hm : dhas st.am k = false := by
        rw [dhas_eq_isSome_dget, hdam]
        rfl
      have hk : dhas st.a1in k = false := by
        rw [dhas_eq_isSome_dget, hdin]
        rfl
      by_cases hout : dhas st.a1out k = true
      · rw [if_pos hout]
        exact twoqInsertAm_cons _ k s ⟨hc.1, hc.2⟩ hm
      · rw [if_neg hout]
        exact twoqInsertA1in_cons _ k s ⟨hc.1, hc.2⟩ hk

/-- Whole runs keep byte consistency. -/
theorem twoqRun_cons : ∀ (ops : List CacheOp) (st : TwoQSt), twoqInv st →
    twoqConsistent st → twoqConsistent (twoqRun st ops)
  | [], _, _, hc => hc
  | .opGet k s _ :: ops, st, h, hc =>
    twoqRun_cons ops _ (twoqGet_inv st k s h) (twoqGet_cons st k s h hc)
  | .opPut k s _ :: ops, st, h, hc =>
    twoqRun_cons ops _ (twoqPut_inv st k s h) (twoqPut_cons st k s h hc)

/-- Every state reachable from a fresh 2Q cache is well-formed: the byte
counters match the resident lists and the key lists are duplicate-free. -/
theorem twoqRun_wf (cap a1inCap a1outCap : Int) (ops : List CacheOp) :
    twoqWF (twoqRun (twoqInit cap a1inCap a1outCap) ops) := by
  have hinv0 : twoqInv (twoqInit cap a1inCap a1outCap) :=
    ⟨List.nodup_nil, List.nodup_nil, List.nodup_nil,
      by simp [twoqInit, dkeys], by simp [twoqInit, dkeys], by simp [twoqInit, dkeys]⟩
  have hc0 : twoqConsistent (twoqInit cap a1inCap a1outCap) := ⟨rfl, rfl⟩
  have hinv := twoqRun_inv ops _ hinv0
  have hcons := twoqRun_cons ops _ hinv0 hc0
  exact ⟨hcons, hinv.1, hinv.2.1⟩

/-- C7 counterexample: the claim as stated fails at concrete inputs on
four policies.  TTL with `ttl_ms = 1` (positive) and capacity 100:
`put(1, 10)` advances the clock to 1 and stamps expiry 2; the following
`get(1, 10)` advances the clock to 2 ≥ 2, so the entry has expired and
the get misses.  Tenant-partitioned LRU with capacity 100 and 2
partitions: `s = 60 ≤ capacity_bytes` but the partition slice holds only
50 bytes, so `put(1, 60)` is refused and `get(1, 60)` misses.  2Q with
capacity 400 and slices 100/200: after `get(1, 350)` twice key 1 holds
350 bytes in Am; `put(2, 200)` admits key 2 into A1in but the eviction
pass pops it into the A1out ghost (200 > 100 = A1in slice while
550 > 400), so `get(2, 200)` misses although `200 ≤ 400`.  Hierarchical
LRU with L1 = 100, L2 = 50: `put(1, 80)` writes only L2, which refuses
the 80-byte entry, so `get(1, 80)` misses although `80 ≤ 100`. -/
theorem C7_put_then_get_counterexample :
    (0 < (ttlInit 100 1).ttl ∧ 10 ≤ (ttlInit 100 1).cap ∧
      ((ttlGet (ttlPut (ttlInit 100 1) 1 10 none) 1 10 none).2).hit = false) ∧
    (60 ≤ (partInit 100 2).cap ∧
      ((partGet (partPut (partInit 100 2) 1 60 none) 1 60 none).2).hit = false) ∧
    (200 ≤ (twoqInit 400 100 200).cap ∧
      ((twoqGet (twoqPut (twoqRun (twoqInit 400 100 200)
        [.opGet 1 350 none, .opGet 1 350 none]) 2 200) 2 200).2).hit = false) ∧
    (80 ≤ (hierInit 100 50).l1.cap ∧
      ((hierGet (hierPut (hierInit 100 50) 1 80) 1 80).2).hit = false) := by decide

/-- C7 (amended): a `put(k, s)` immediately followed by `get(k, s)`
returns a hit for the LRU, FIFO, MRU, LFU, CLOCK, CLOCK-Pro, LRU-K, ARC
and priority-LRU policies in every state with `s ≤ capacity_bytes` (for
the fuelled LFU, CLOCK and CLOCK-Pro eviction loops at every fuel, i.e.
whenever the put's eviction pass terminates); for TTL provided
additionally that the clock value the get advances to lies strictly
before the expiry stamped by the put (under the logical clock this means
`ttl_ms ≥ 2`); for the tenant-partitioned LRU provided the size fits the
per-partition slice `capacity_bytes // partitions`; for the hierarchical
LRU provided the size fits the L2 capacity (put writes L2 only); and for
2Q — where the claim fails as stated — provided the state is well-formed
(as every reachable state is, last conjunct) and the size fits the A1in
slice with slice + size within the total capacity. -/
theorem C7_put_then_get_amended :
    (∀ (st : LRUSt) (k s : Int), s ≤ st.cap →
      ((lruGet (lruPut st k s) k s).2).hit = true) ∧
    (∀ (st : FIFOSt) (k s : Int), s ≤ st.cap →
      ((fifoGet (fifoPut st k s) k s).2).hit = true) ∧
    (∀ (st : MRUSt) (k s : Int), s ≤ st.cap →
      ((mruGet (mruPut st k s) k s).2).hit = true) ∧
    (∀ (f1 f2 : Nat) (st : LFUSt) (k s : Int), s ≤ st.cap →
      ((lfuGet f2 (lfuPut f1 st k s) k s).2).hit = true) ∧
    (∀ (f1 f2 : Nat) (st : ClockSt) (k s : Int), s ≤ st.cap →
      ((clockGet f2 (clockPut f1 st k s) k s).2).hit = true) ∧
    (∀ (f1 f2 : Nat) (st : CPSt) (k s : Int), s ≤ st.cap →
      ((cpGet f2 (cpPut f1 st k s) k s).2).hit = true) ∧
    (∀ (st : LRUKSt) (k s : Int), s ≤ st.cap →
      ((lrukGet (lrukPut st k s) k s).2).hit = true) ∧
    (∀ (st : ARCSt) (k s : Int), s ≤ st.cap →
      ((arcGet (arcPut st k s) k s).2).hit = true) ∧
    (∀ (st : PrioSt) (k s : Int) (md md2 : Option CacheMetadata), s ≤ st.cap →
      ((prioGet (prioPut st k s md) k s md2).2).hit = true) ∧
    (∀ (st : TTLSt) (k s : Int) (md1 md2 : Option CacheMetadata),
      s ≤ st.cap → 0 < st.ttl →
      (ttlAdvance (ttlPut st k s md1) md2).now < (ttlAdvance st md1).now + st.ttl →
      ((ttlGet (ttlPut st k s md1) k s md2).2).hit = true) ∧
    (∀ (st : PartSt) (k s : Int) (md : Option CacheMetadata),
      partSelect st md < st.caches.length →
      s ≤ (st.caches.getD (partSelect st md) (lruInit 0)).cap →
      ((partGet (partPut st k s md) k s md).2).hit = true) ∧
    (∀ (st : HierSt) (k s : Int), s ≤ st.l2.cap →
      ((hierGet (hierPut st k s) k s).2).hit = true) ∧
    (∀ (st : TwoQSt) (k s : Int), twoqWF st → 0 ≤ s → s ≤ st.a1inCap →
      st.a1inCap + s ≤ st.cap →
      ((twoqGet (twoqPut st k s) k s).2).hit = true) ∧
    (∀ (cap a1inCap a1outCap : Int) (ops : List CacheOp),
      twoqWF (twoqRun (twoqInit cap a1inCap a1outCap) ops)) :=
  ⟨fun st k s hs => lruGet_hit_of_has _ k s (lruPut_has st k s hs),
   fifoPut_then_get_hit, mruPut_then_get_hit, lfuPut_then_get_hit,
   clockPut_then_get_hit, cpPut_then_get_hit, lrukPut_then_get_hit,
   arcPut_then_get_hit, prioPut_then_get_hit, ttlPut_then_get_hit,
   partPut_then_get_hit, hierPut_then_get_hit, twoqPut_then_get_hit,
   twoqRun_wf⟩

/-- Witness for the amended C7 at concrete inputs: each policy's
put-then-get conjunct applied at capacity 100 (2Q: 400 with slices
100/200; partitioned: 2 partitions; TTL: `ttl_ms = 5`; LRU-K: k = 2;
ARC: `p₀ = 50`; fuelled loops at fuel 5), and the 2Q well-formedness
conjunct at the empty operation list. -/
theorem C7_put_then_get_amended_witness :
    ((lruGet (lruPut (lruInit 100) 1 50) 1 50).2).hit = true ∧
    ((fifoGet (fifoPut (fifoInit 100) 1 50) 1 50).2).hit = true ∧
    ((mruGet (mruPut (mruInit 100) 1 50) 1 50).2).hit = true ∧
    ((lfuGet 5 (lfuPut 5 (lfuInit 100) 1 50) 1 50).2).hit = true ∧
    ((clockGet 5 (clockPut 5 (clockInit 100) 1 50) 1 50).2).hit = true ∧
    ((cpGet 5 (cpPut 5 (cpInit 100) 1 50) 1 50).2).hit = true ∧
    ((lrukGet (lrukPut (lrukInit 100 2) 1 50) 1 50).2).hit = true ∧
    ((arcGet (arcPut (arcInit 100 50) 1 50) 1 50).2).hit = true ∧
    ((prioGet (prioPut (prioInit 100) 1 50 none) 1 50 none).2).hit = true ∧
    ((ttlGet (ttlPut (ttlInit 100 5) 1 10 none) 1 10 none).2).hit = true ∧
    ((partGet (partPut (partInit 100 2) 1 50 none) 1 50 none).2).hit = true ∧
    ((hierGet (hierPut (hierInit 100 100) 1 80) 1 80).2).hit = true ∧
    ((twoqGet (twoqPut (twoqInit 400 100 200) 1 50) 1 50).2).hit = true ∧
    twoqWF (twoqRun (twoqInit 400 100 200) []) :=
  ⟨C7_put_then_get_amended.1 (lruInit 100) 1 50 (by decide),
   C7_put_then_get_amended.2.1 (fifoInit 100) 1 50 (by decide),
   C7_put_then_get_amended.2.2.1 (mruInit 100) 1 50 (by decide),
   C7_put_then_get_amended.2.2.2.1 5 5 (lfuInit 100) 1 50 (by decide),
   C7_put_then_get_amended.2.2.2.2.1 5 5 (clockInit 100) 1 50 (by decide),
   C7_put_then_get_amended.2.2.2.2.2.1 5 5 (cpInit 100) 1 50 (by decide),
   C7_put_then_get_amended.2.2.2.2.2.2.1 (lrukInit 100 2) 1 50 (by decide),
   C7_put_then_get_amended.2.2.2.2.2.2.2.1 (arcInit 100 50) 1 50 (by decide),
   C7_put_then_get_amended.2.2.2.2.2.2.2.2.1 (prioInit 100) 1 50 none none (by decide),
   C7_put_then_get_amended.2.2.2.2.2.2.2.2.2.1 (ttlInit 100 5) 1 10 none none
     (by decide) (by decide) (by decide),
   C7_put_then_get_amended.2.2.2.2.2.2.2.2.2.2.1 (partInit 100 2) 1 50 none
     (by decide) (by decide),
   C7_put_then_get_amended.2.2.2.2.2.2.2.2.2.2.2.1 (hierInit 100 100) 1 80 (by decide),
   C7_put_then_get_amended.2.2.2.2.2.2.2.2.2.2.2.2.1 (twoqInit 400 100 200) 1 50
     ⟨⟨rfl, rfl⟩, List.nodup_nil, List.nodup_nil⟩ (by decide) (by decide) (by decide),
   C7_put_then_get_amended.2.2.2.2.2.2.2.2.2.2.2.2.2 400 100 200 []⟩
